import Mathlib

/-!
# Verification of the PacmanEvolution decision engine

A shallow embedding in Lean 4 of the core of the PacmanEvolution repository:
the grid/vector primitives (`pacman/util.py`, `pacman/array.py`), the world
state machine (`pacman/gamestate.py`), the search representations and
algorithms (`pacman/search.py`, `ass2.py`) and the adversarial minimax /
alpha-beta engine (`ass4.py`), together with theorems settling the frozen
claims about the natural-language specification.

Modelling conventions:
* Python `int` values become `Int` (scores) or `Nat` (depths, timers, ticks);
  Python floats appear in the code only as ordered values with `±inf`
  (alpha/beta bounds, `standard_pathcost`'s `float('inf')`), so they are
  modelled by `WithBot`/`WithTop` over a linearly ordered value type.
* In-place mutation of a `Gamestate` becomes a function returning the updated
  state; the one method that can raise (`apply_move`, which raises on a wall
  collision *after* having mutated the state) returns the state it reached
  together with an error flag.
* Python list indexing is modelled with `List.getD` / `List.set`; every claim
  is used at indices where the Python source would not raise `IndexError`.
-/

namespace PacmanEvolution

/-! ## Vectors (`pacman/util.py`, class `Vector`)

`Vector` is a NamedTuple of two ints with componentwise arithmetic. Only the
operations used by the verified code are embedded. -/

structure Vector where
  x : Int
  y : Int
deriving DecidableEq, Repr

instance : Add Vector := ⟨fun a b => ⟨a.x + b.x, a.y + b.y⟩⟩

theorem Vector.add_def (a b : Vector) : a + b = ⟨a.x + b.x, a.y + b.y⟩ := rfl

/-- `Vector.zero` (the class property `zero`). -/
def Vector.zero : Vector := ⟨0, 0⟩

/-- Python tuple comparison `(x1, y1) < (x2, y2)`: lexicographic. Used by
`Move.__lt__` and by `PriorityQueue` tie-breaking. -/
def Vector.pylt (a b : Vector) : Bool :=
  a.x < b.x || (a.x = b.x && a.y < b.y)

/-! ## Moves (`pacman/util.py`, class `Move`)

The enumeration order in the source is `up, down, right, left, stop`; the
`opposite` property is computed by index symmetry. -/

inductive Move where
  | up
  | down
  | right
  | left
  | stop
deriving DecidableEq, Repr

/-- The fixed enumeration order `list(Move)` of the Python `enum`. -/
def Move.enumList : List Move := [.up, .down, .right, .left, .stop]

/-- `Move.vector`: the movement delta carried by each enumeration member. -/
def Move.vector : Move → Vector
  | .up => ⟨0, 1⟩
  | .down => ⟨0, -1⟩
  | .right => ⟨1, 0⟩
  | .left => ⟨-1, 0⟩
  | .stop => ⟨0, 0⟩

/-- `Move.index`: position of the member in `list(Move)`. -/
def Move.index : Move → Nat
  | .up => 0
  | .down => 1
  | .right => 2
  | .left => 3
  | .stop => 4

/-- `Move.by_index`: member of `list(Move)` at a given index. -/
def Move.by_index (i : Nat) : Move := Move.enumList.getD i .stop

/-- `Move.opposite`: `stop` maps to `stop`, otherwise computed by the index
formula `by_index(index + 1 - 2 * (index % 2))` from the source. -/
def Move.opposite (m : Move) : Move :=
  if m = .stop then .stop
  else Move.by_index (m.index + 1 - 2 * (m.index % 2))

/-- `Move.no_stop`: all moves except `stop`, in enumeration order. -/
def Move.no_stop : List Move := Move.enumList.filter (· ≠ .stop)

/-- `Move.__lt__` compares the underlying value tuples. -/
def Move.pylt (a b : Move) : Bool := a.vector.pylt b.vector

/-! ## Arrays (`pacman/array.py`, class `Array`)

An `Array` stores a list of *columns* (`self._array[x][y]`). The caches
(`_cache_indicate`, `_cache_list`) are pure memoisation of the derived views
and are not part of the observable value, so they are omitted. -/

structure Array (α : Type) where
  arr : List (List α)
deriving DecidableEq, Repr, Inhabited

namespace Array

variable {α : Type}

/-- `Array.contains`: bounds test against the number of columns and the length
of the first column (`0 <= x < len(_array) and 0 <= y < len(_array[0])`). -/
def contains (a : Array α) (v : Vector) : Bool :=
  decide (0 ≤ v.x) && decide (v.x < (a.arr.length : Int)) &&
    decide (0 ≤ v.y) && decide (v.y < ((a.arr.headD []).length : Int))

/-- `Array.shape`: `(len(_array), len(_array[0]))`, or the zero vector for an
empty array. -/
def shape (a : Array α) : Vector :=
  match a.arr with
  | [] => Vector.zero
  | c :: _ => ⟨a.arr.length, c.length⟩

/-- `Array.__getitem__` for a 2-tuple index: `None` when the index is out of
bounds, otherwise the stored value `_array[x][y]`. -/
def getItem (a : Array α) (v : Vector) : Option α :=
  if a.contains v then (a.arr[v.x.toNat]?).bind (fun col => col[v.y.toNat]?)
  else none

/-- `Array.__setitem__` (after clearing the caches): `_array[x][y] = value`.
The Python source raises `IndexError` out of bounds; the embedding is a no-op
there, and every verified use is in bounds. -/
def setItem (a : Array α) (v : Vector) (value : α) : Array α :=
  ⟨a.arr.modify (fun c => c.set v.y.toNat value) v.x.toNat⟩

/-- `Array.list(value)`: coordinates (in `itertools.product(range(shape.x),
range(shape.y))` order, x outer) whose cell equals `value`. -/
def listVal [DecidableEq α] (a : Array α) (value : α) : List Vector :=
  (List.range a.shape.x.toNat).flatMap (fun (x : Nat) =>
    (List.range a.shape.y.toNat).filterMap (fun (y : Nat) =>
      if (a.arr[x]?).bind (fun col => col[y]?) = some value then
        some ⟨x, y⟩
      else none))

/-- `Array.indicate(value)` materialised as a plain boolean array: the
`IndicatorArray` of a grid is its cellwise `== value` image. -/
def indicate [DecidableEq α] (a : Array α) (value : α) : Array Bool :=
  ⟨a.arr.map (fun c => c.map (fun cell => decide (cell = value)))⟩

/-- Truthiness of an indicator lookup `arr[v]`: `None` (out of bounds) and
`False` are both falsy in the `if` tests of the source. -/
def truthy (a : Array Bool) (v : Vector) : Bool :=
  (a.getItem v).getD false

/-- `Array.copy`: fresh outer list and fresh columns, same cell values. -/
def copy (a : Array α) : Array α := ⟨a.arr.map (fun c => c.map id)⟩

/-- One simultaneous step of Python's `zip(*columns)`: the heads of all the
columns, provided the outer list is non-empty and no column is empty.
`pyZipAux` is fuelled by the length of the first column, which bounds the
number of tuples `zip` produces. -/
def pyZipAux : Nat → List (List α) → List (List α)
  | 0, _ => []
  | n + 1, l =>
    if l.all (fun c => !c.isEmpty) then
      l.filterMap List.head? :: pyZipAux n (l.map List.tail)
    else []

/-- `Array.transpose`: `list(map(list, zip(*self._array)))`. Python's `zip`
truncates to the shortest column; the fuel `c.length` (first column) is enough
because `zip` stops as soon as any column, in particular the first, runs out. -/
def transpose (a : Array α) : Array α :=
  match a.arr with
  | [] => ⟨[]⟩
  | c :: _ => ⟨pyZipAux c.length a.arr⟩

/-- `Array.mirror_hor`: `list(reversed(self._array))`. -/
def mirror_hor (a : Array α) : Array α := ⟨a.arr.reverse⟩

/-- `Array.mirror_ver`: `self.transpose.mirror_hor.transpose`. -/
def mirror_ver (a : Array α) : Array α := a.transpose.mirror_hor.transpose

/-- A rectangular array: every column has length `n`. -/
def Rect (a : Array α) (n : Nat) : Prop := ∀ c ∈ a.arr, c.length = n

/-- The `i`-th row of a column-major grid (the `i`-th tuple `zip` produces on
a rectangular grid); used to analyse `transpose`. -/
def rowAt (l : List (List α)) (i : Nat) : List α :=
  l.filterMap (fun col => col[i]?)

end Array

/-! ## Layout objects (`pacman/layouts.py`, `LayoutObject`) -/

inductive LayoutObject where
  | empty
  | wall
  | pacman
  | ghost
  | ghost_scared
  | dot
  | pellet
deriving DecidableEq, Repr

/-! ## The world state machine (`pacman/gamestate.py`, class `Gamestate`)

`agents` holds `none` for an absent (dead) agent — Python stores `None`
there, and `Vector` tuples are always truthy while `None` is falsy, so the
source's truthiness tests on agent slots are exactly absence tests. -/

structure Gamestate where
  statics : Array LayoutObject
  agents : List (Option Vector)
  starts : List (Option Vector)
  facings : List Move
  timers : List Nat
  score : Int
  tick : Nat
deriving DecidableEq, Repr, Inhabited

namespace Gamestate

/-- `SCARED_TIME` -/
def SCARED_TIME : Nat := 40

/-- `SCORE_GET_DOT` -/
def SCORE_GET_DOT : Int := 10

/-- `SCORE_GET_ALL_DOTS` -/
def SCORE_GET_ALL_DOTS : Int := 500

/-- `SCORE_GET_PELLET` -/
def SCORE_GET_PELLET : Int := 5

/-- `SCORE_GET_GHOST` -/
def SCORE_GET_GHOST : Int := 200

/-- `SCORE_TICK_PENALTY` -/
def SCORE_TICK_PENALTY : Int := -1

/-- `SCORE_DIE_PENALTY` -/
def SCORE_DIE_PENALTY : Int := -500

/-- `MAX_TICKS` -/
def MAX_TICKS : Nat := 100

/-- `Gamestate.pacman`: `self.agents[0]` (absent agents are `none`). -/
def pacman (g : Gamestate) : Option Vector := g.agents.getD 0 none

/-- Truthiness of `self.walls[v]` where `walls = self._statics.indicate(wall)`:
in bounds and equal to `wall`; an out-of-bounds indicator lookup is `None`,
which is falsy. -/
def wallAt (g : Gamestate) (v : Vector) : Bool :=
  (g.statics.indicate .wall).truthy v

/-- Truthiness of `self.dots[v]`. -/
def dotAt (g : Gamestate) (v : Vector) : Bool :=
  (g.statics.indicate .dot).truthy v

/-- Truthiness of `self.pellets[v]`. -/
def pelletAt (g : Gamestate) (v : Vector) : Bool :=
  (g.statics.indicate .pellet).truthy v

/-- `self.dots.list()`: the coordinates of the remaining dot cells (the
indicator array's `True`-list coincides with `statics.list(dot)`). -/
def dotsList (g : Gamestate) : List Vector := g.statics.listVal .dot

/-- `Gamestate.loss`: `not self.pacman` — the player slot is absent. -/
def loss (g : Gamestate) : Bool := g.pacman = none

/-- `Gamestate.win`: `not self.loss and not self.dots.list()`. -/
def win (g : Gamestate) : Bool := !g.loss && g.dotsList.isEmpty

/-- `Gamestate.gameover`: `self.win or self.loss`. -/
def gameover (g : Gamestate) : Bool := g.win || g.loss

/-- `Gamestate.kill`: Pacman becomes absent; a ghost is reset to its start
with its scared timer cleared. -/
def kill (g : Gamestate) (agent_id : Nat) : Gamestate :=
  if agent_id = 0 then { g with agents := g.agents.set 0 none }
  else
    { g with
      agents := g.agents.set agent_id (g.starts.getD agent_id none)
      timers := g.timers.set agent_id 0 }

/-- `Gamestate.destroy`: the agent becomes absent; destroying Pacman also
subtracts the death penalty. -/
def destroy (g : Gamestate) (agent_id : Nat) : Gamestate :=
  let g := { g with agents := g.agents.set agent_id none }
  if agent_id = 0 then { g with score := g.score + SCORE_DIE_PENALTY } else g

/-- `Gamestate._resolve_encounter`: if the ghost's (current) scared timer is
non-zero Pacman kills the ghost for the kill bonus, otherwise the ghost kills
Pacman for the death penalty. -/
def resolveEncounter (g : Gamestate) (ghost_id : Nat) : Gamestate :=
  if g.timers.getD ghost_id 0 ≠ 0 then
    let g := g.kill ghost_id
    { g with score := g.score + SCORE_GET_GHOST }
  else
    let g := g.kill 0
    { g with score := g.score + SCORE_DIE_PENALTY }

/-- `self._timers[1:] = [SCARED_TIME] * len(self._timers[1:])`. -/
def scareGhostTimers : List Nat → List Nat
  | [] => []
  | t0 :: rest => t0 :: rest.map (fun _ => SCARED_TIME)

/-- `Gamestate.apply_move`, translated statement by statement. The Python
method mutates `self` in place and *raises* when the destination is a wall,
leaving the partial mutations behind; the embedding returns the state reached
together with an error flag (`true` = the wall `RuntimeError` was raised,
and the first component is the state at the moment of the raise).
The source's `if not move: move = Move.stop` guard only converts a `None`
argument and is dropped (the argument here is always a genuine `Move`). -/
def applyMove (g : Gamestate) (agent_id : Nat) (move : Move) : Gamestate × Bool :=
  match g.agents.getD agent_id none with
  | none => (g, false)
  | some vector =>
    let g := { g with facings := g.facings.set agent_id move }
    let new_vector := vector + move.vector
    let g := { g with agents := g.agents.set agent_id (some new_vector) }
    let g :=
      if g.timers.getD agent_id 0 ≠ 0 then
        { g with timers := g.timers.set agent_id (g.timers.getD agent_id 0 - 1) }
      else g
    let g :=
      if agent_id = 0 then { g with score := g.score + SCORE_TICK_PENALTY } else g
    if g.wallAt new_vector then
      let g :=
        if agent_id = 0 then { g with score := g.score + SCORE_DIE_PENALTY } else g
      (g, true)
    else if agent_id = 0 then
      let g :=
        if (g.agents.drop 1).contains (some new_vector) then
          g.resolveEncounter ((g.agents.drop 1).indexOf (some new_vector) + 1)
        else g
      let g :=
        if g.dotAt new_vector then
          let g := { g with statics := g.statics.setItem new_vector .empty }
          let g := { g with score := g.score + SCORE_GET_DOT }
          if g.dotsList.isEmpty then { g with score := g.score + SCORE_GET_ALL_DOTS }
          else g
        else g
      let g :=
        if g.pelletAt new_vector then
          let g := { g with statics := g.statics.setItem new_vector .empty }
          let g := { g with score := g.score + SCORE_GET_PELLET }
          { g with timers := scareGhostTimers g.timers }
        else g
      (g, false)
    else
      if g.agents.getD 0 none = some new_vector then (g.resolveEncounter agent_id, false)
      else (g, false)

/-- `Gamestate.legal_moves_vector`: the moves whose destination is not a wall,
iterating the `Move` enumeration in order (the Python method builds a `set`;
the embedding keeps the list, and only membership is ever used). -/
def legal_moves_vector (g : Gamestate) (vector : Vector) : List Move :=
  Move.enumList.filter (fun move => !g.wallAt (vector + move.vector))

/-- `Gamestate.legal_moves_id`: legal moves from the agent's current
location. An absent agent has no location; the Python source would raise
there (`None + vector`), and no verified call reaches that case. -/
def legal_moves_id (g : Gamestate) (agent_id : Nat) : List Move :=
  g.legal_moves_vector ((g.agents.getD agent_id none).getD Vector.zero)

/-- `Gamestate.copy`: an independent copy, field by field (list and array
copies are by-value in the embedding). -/
def copy (g : Gamestate) : Gamestate :=
  { statics := g.statics.copy
    agents := g.agents
    starts := g.starts
    facings := g.facings
    timers := g.timers
    score := g.score
    tick := g.tick }

/-- `Gamestate.successor`: apply a move to an independent copy. -/
def successor (g : Gamestate) (agent_id : Nat) (move : Move) : Gamestate :=
  (g.copy.applyMove agent_id move).1

/-- `Gamestate.successors`: successors for every legal move of the agent. -/
def successors (g : Gamestate) (agent_id : Nat) : List Gamestate :=
  (g.legal_moves_vector ((g.agents.getD agent_id none).getD Vector.zero)).map
    (fun move => g.successor agent_id move)

end Gamestate

/-! ## The adversarial search engine (`ass4.py`)

Scores live in `E V := WithBot (WithTop V)` for a linearly ordered value type
`V`: the Python code works with floats only as ordered values plus the two
infinities `float('-inf')` / `float('inf')` used to initialise `best_score`,
`alpha` and `beta`.

`MinimaxAgent.minimax` computes `max(scores)` / `min(scores)` over the legal
moves; the embedding folds `max` from `⊥` (resp. `min` from `⊤`), which
agrees with Python's `max`/`min` whenever the legal-move list is non-empty
(Python raises `ValueError` on an empty list, which cannot happen for agents
standing on a non-wall cell since `stop` is always legal). Only the score
component is embedded: the returned move is drawn uniformly at random among
the best-scoring moves and is irrelevant to every claim about scores. -/

abbrev E (V : Type) := WithBot (WithTop V)

variable {V : Type} [LinearOrder V]

/-- `MinimaxAgent.minimax` (score component): depth-limited minimax where the
maximizer is Pacman (agent 0), the minimizer is the single ghost (agent 1),
and the depth counter decreases when the minimizer hands the turn back. -/
def minimaxScore (eval : Gamestate → V) (g : Gamestate) (depth : Nat)
    (maximizer : Bool) : E V :=
  if _h : depth = 0 ∨ g.loss ∨ g.win then ((eval g : WithTop V) : E V)
  else if maximizer then
    ((g.legal_moves_id 0).map
      (fun m => minimaxScore eval (g.successor 0 m) depth false)).foldl max ⊥
  else
    ((g.legal_moves_id 1).map
      (fun m => minimaxScore eval (g.successor 1 m) (depth - 1) true)).foldl min ⊤
termination_by (2 * depth + (if maximizer then 1 else 0))
decreasing_by
  · simp_all only [not_or, if_pos, if_neg, Bool.false_eq_true, ite_false]
    omega
  · simp_all only [not_or, Bool.not_eq_true, if_neg, Bool.false_eq_true, ite_false,
      Bool.true_eq, ite_true, if_pos]
    omega

mutual

/-- `AlphabetaAgent.alpha_beta`: same recursion scheme as `minimax` with an
`(alpha, beta)` pruning window. The two `for` loops with `break` become the
mutually recursive `abMaxLoop` / `abMinLoop`; the minimizer's depth is
decremented on entry to the loop rather than at each recursive call inside
it, which is the same value since the loop body does not change `depth`. -/
def alpha_beta (eval : Gamestate → V) (g : Gamestate) (depth : Nat)
    (maximizer : Bool) (alpha beta : E V) : E V × Move :=
  if _h : depth = 0 ∨ g.loss ∨ g.win then (((eval g : WithTop V) : E V), .stop)
  else if maximizer then
    abMaxLoop eval g depth (g.legal_moves_id 0) ⊥ .stop alpha beta
  else
    abMinLoop eval g (depth - 1) (g.legal_moves_id 1) ⊤ .stop alpha beta
termination_by (2 * depth + (if maximizer then 1 else 0), 1, 0)
decreasing_by
  · simp_all only [not_or, if_pos]
    exact Prod.Lex.right _ (Prod.Lex.left _ _ (by omega))
  · simp_all only [not_or, Bool.not_eq_true, if_neg]
    have e : 2 * (depth - 1) + 2 = 2 * depth + (if false = true then 1 else 0) := by
      simp
      omega
    rw [e]
    exact Prod.Lex.right _ (Prod.Lex.left _ _ (by omega))

/-- The maximizer's `for move in legal_actions` loop of `alpha_beta`:
`best`/`bestA` accumulate `best_score`/`best_action`, `alpha` is raised to
`max(best_score, alpha)` and the loop `break`s once `beta <= alpha`. -/
def abMaxLoop (eval : Gamestate → V) (g : Gamestate) (depth : Nat) :
    List Move → E V → Move → E V → E V → E V × Move
  | [], best, bestA, _, _ => (best, bestA)
  | m :: ms, best, bestA, alpha, beta =>
    let score := (alpha_beta eval (g.successor 0 m) depth false alpha beta).1
    let best' := if best < score then score else best
    let bestA' := if best < score then m else bestA
    let alpha' := max best' alpha
    if beta ≤ alpha' then (best', bestA')
    else abMaxLoop eval g depth ms best' bestA' alpha' beta
termination_by ms => (2 * depth + 1, 0, ms.length)
decreasing_by
  · apply Prod.Lex.left
    simp
  · exact Prod.Lex.right _ (Prod.Lex.right _ (by simp))

/-- The minimizer's loop of `alpha_beta` (`depth` here is the already
decremented depth passed to the recursive maximizer calls): `beta` is lowered
to `min(best_score, beta)` and the loop `break`s once `beta <= alpha`. -/
def abMinLoop (eval : Gamestate → V) (g : Gamestate) (depth : Nat) :
    List Move → E V → Move → E V → E V → E V × Move
  | [], best, bestA, _, _ => (best, bestA)
  | m :: ms, best, bestA, alpha, beta =>
    let score := (alpha_beta eval (g.successor 1 m) depth true alpha beta).1
    let best' := if score < best then score else best
    let bestA' := if score < best then m else bestA
    let beta' := min best' beta
    if beta' ≤ alpha then (best', bestA')
    else abMinLoop eval g depth ms best' bestA' alpha beta'
termination_by ms => (2 * depth + 2, 0, ms.length)
decreasing_by
  · apply Prod.Lex.left
    simp
  · exact Prod.Lex.right _ (Prod.Lex.right _ (by simp))

end

/-- Fail-soft alpha-beta specification predicate relating the true minimax
value `v` and the value `r` returned by a pruning search run with window
`(a, b)`: inside the window the two agree, at or below `a` the returned value
is some value in `[v, a]`, and at or above `b` it is some value in `[b, v]`. -/
def ABSpec (v r a b : E V) : Prop :=
  (v ≤ a → r ≤ a ∧ v ≤ r) ∧ (b ≤ v → b ≤ r ∧ r ≤ v) ∧ (a < v → v < b → r = v)

/-! ## Search representations (`pacman/search.py`)

`PositionSearchRepresentation` wraps a gamestate into a position-goal search
problem: states are `Vector`s, the walls grid is the gamestate's wall
indicator, and the cost of a step is `cost_fn` of the destination cell.
Costs are rational numbers (`cost_fn` returns a number; the default is the
constant `1`), with `WithTop ℚ` for `standard_pathcost`'s `float('inf')`.
The `expansion_order` / `expansion_count` bookkeeping that `is_goal` updates
is diagnostic visualization state, explicitly excluded from correctness by
the specification, and is omitted. -/

structure PositionSearchRepresentation where
  start_state : Vector
  goal : Vector
  cost_fn : Vector → ℚ
  walls : Array Bool

namespace PositionSearchRepresentation

/-- `PositionSearchRepresentation.__init__` applied to a gamestate: the start
is Pacman's position (alive in every use) and the walls are the gamestate's
wall indicator array. -/
def ofGamestate (g : Gamestate) (goal : Vector) (cost_fn : Vector → ℚ) :
    PositionSearchRepresentation :=
  { start_state := g.pacman.getD Vector.zero
    goal := goal
    cost_fn := cost_fn
    walls := g.statics.indicate .wall }

/-- The `start` property. -/
def start (r : PositionSearchRepresentation) : Vector := r.start_state

/-- `is_goal`: equality with the fixed goal position. -/
def is_goal (r : PositionSearchRepresentation) (state : Vector) : Bool :=
  state = r.goal

/-- `successors`: for each non-`stop` move in enumeration order whose
destination is not a wall, the triple `(destination, [move], cost_fn
destination)`. -/
def successors (r : PositionSearchRepresentation) (state : Vector) :
    List (Vector × List Move × ℚ) :=
  Move.no_stop.filterMap (fun move =>
    let new_vector := state + move.vector
    if r.walls.truthy new_vector then none
    else some (new_vector, [move], r.cost_fn new_vector))

end PositionSearchRepresentation

/-- The accumulator loop of `standard_pathcost`: walk the moves from the
start, returning `inf` as soon as a visited cell is a wall, and otherwise
adding `cost_fn(direction.vector)` per move (the source applies `cost_fn` to
the move's *delta*, not to the destination cell). -/
def pathcostGo (walls : Array Bool) (cost_fn : Vector → ℚ) :
    Vector → WithTop ℚ → List Move → WithTop ℚ
  | _, cost, [] => cost
  | vector, cost, direction :: rest =>
    let v := vector + direction.vector
    if walls.truthy v then ⊤
    else pathcostGo walls cost_fn v (cost + (cost_fn direction.vector : WithTop ℚ)) rest

/-- `standard_pathcost`. -/
def standard_pathcost (path : List Move) (start : Vector) (walls : Array Bool)
    (cost_fn : Vector → ℚ) : WithTop ℚ :=
  pathcostGo walls cost_fn start 0 path

/-- `PositionSearchRepresentation.pathcost`. -/
def PositionSearchRepresentation.pathcost (r : PositionSearchRepresentation)
    (path : List Move) : WithTop ℚ :=
  standard_pathcost path r.start r.walls r.cost_fn

/-! ## The search algorithms (`ass2.py`)

All four algorithms share one traversal skeleton and differ only in the
frontier discipline; `searchAux` is that skeleton, parametrised by the
frontier's selection (`sel`, which removes the node the queue's `get` would
yield) and insertion (`ins`, where `put` places a new node) functions, and by
an explicit fuel counter standing for the number of loop iterations (the
Python `while` loop has no built-in bound; the theorems below provide
sufficient fuel explicitly). `SearchResult.nopath` is the `return None` taken
when the frontier empties, and `SearchResult.found` the `return path`. -/

/-- A search node `(state, path-from-start, accumulated cost)`. -/
abbrev Node := Vector × List Move × ℚ

inductive SearchResult where
  | found (path : List Move)
  | nopath
  | fuelOut
deriving DecidableEq, Repr

/-- The shared `while not frontier.empty()` loop: select a node; skip it if
its state is explored; mark the state explored; return its path if it is the
goal; otherwise insert every successor whose state is unexplored. (In
`astar` the source marks a node explored just after the goal test rather
than just before; the two orders return identical results since a goal test
success exits the loop immediately.) -/
def searchAux (rep : PositionSearchRepresentation)
    (sel : List Node → Option (Node × List Node))
    (ins : Node → List Node → List Node) :
    Nat → List Node → List Vector → SearchResult
  | 0, _, _ => .fuelOut
  | fuel + 1, frontier, explored =>
    match sel frontier with
    | none => .nopath
    | some ((state, path, cost), rest) =>
      if state ∈ explored then searchAux rep sel ins fuel rest explored
      else
        let explored' := state :: explored
        if rep.is_goal state then .found path
        else
          searchAux rep sel ins fuel
            ((rep.successors state).foldl
              (fun q s =>
                if s.1 ∈ explored' then q
                else ins (s.1, path ++ s.2.1, cost + s.2.2) q) rest)
            explored'

/-- Remove the next node of a LIFO (`queue.LifoQueue`) or FIFO
(`queue.Queue`) frontier represented with its next-out node first. -/
def selHead : List Node → Option (Node × List Node)
  | [] => none
  | n :: ns => some (n, ns)

/-- `LifoQueue.put`: the newest node is the next out. -/
def insFront (n : Node) (q : List Node) : List Node := n :: q

/-- `Queue.put` (and the heap inserts): the node joins the back, so with
`selHead` the oldest node is the next out. -/
def insBack (n : Node) (q : List Node) : List Node := q ++ [n]

/-- Python list comparison on move lists (elementwise `==` then `<`, shorter
prefix first), as used by `PriorityQueue` tie-breaking. -/
def movesPylt : List Move → List Move → Bool
  | [], [] => false
  | [], _ :: _ => true
  | _ :: _, [] => false
  | a :: as, b :: bs => if a = b then movesPylt as bs else a.pylt b

/-- The strict order by which `queue.PriorityQueue` pops in `uniformcost`:
entries are `(cost, (state, path, cost))`, compared lexicographically with
Python tuple/list comparison. -/
def nodeLt (a b : Node) : Bool :=
  if a.2.2 ≠ b.2.2 then decide (a.2.2 < b.2.2)
  else if a.1 ≠ b.1 then a.1.pylt b.1
  else movesPylt a.2.1 b.2.1

/-- Remove a minimal node w.r.t. a strict comparison, keeping the leftmost
node among ties (equal heap keys are indistinguishable to the caller). -/
def selMinBy (lt : Node → Node → Bool) : List Node → Option (Node × List Node)
  | [] => none
  | n :: ns =>
    match selMinBy lt ns with
    | none => some (n, [])
    | some (m, rest) => if lt m n then some (m, n :: rest) else some (n, ns)

/-- Remove the node with the least priority value, keeping the leftmost node
among ties: with back-insertion this is exactly `PriorityFunctionQueue`'s
`(priority, insertion counter)` heap order. -/
def selMinPrio (prio : Node → ℚ) : List Node → Option (Node × List Node)
  | [] => none
  | n :: ns =>
    match selMinPrio prio ns with
    | none => some (n, [])
    | some (m, rest) => if prio m < prio n then some (m, n :: rest) else some (n, ns)

/-- `depthfirst`: LIFO frontier. -/
def depthfirst (rep : PositionSearchRepresentation) (fuel : Nat) : SearchResult :=
  searchAux rep selHead insFront fuel [(rep.start, [], 0)] []

/-- `breadthfirst`: FIFO frontier. -/
def breadthfirst (rep : PositionSearchRepresentation) (fuel : Nat) : SearchResult :=
  searchAux rep selHead insBack fuel [(rep.start, [], 0)] []

/-- `uniformcost`: priority frontier keyed by accumulated path cost (the
entries pushed are `(cost + actionCost, node)` with the node's own cost equal
to the key). -/
def uniformcost (rep : PositionSearchRepresentation) (fuel : Nat) : SearchResult :=
  searchAux rep (selMinBy nodeLt) insBack fuel [(rep.start, [], 0)] []

/-- `astar`: priority frontier keyed by `heuristic(state, representation) +
cost`, ties broken by insertion order. -/
def astar (rep : PositionSearchRepresentation)
    (heuristic : Vector → PositionSearchRepresentation → ℚ) (fuel : Nat) :
    SearchResult :=
  searchAux rep (selMinPrio (fun n => heuristic n.1 rep + n.2.2)) insBack fuel
    [(rep.start, [], 0)] []

/-- The `null` heuristic. -/
def nullHeuristic (_v : Vector) (_r : PositionSearchRepresentation) : ℚ := 0

/-! ## An object store for the copy discipline (`Gamestate.successor`)

Python objects are mutated in place, so "`successor` never mutates the
receiver" is a statement about aliasing: the method takes `self.copy` (a
fresh object whose fields are fresh lists with the same values) and hands
only that fresh object to the in-place `apply_move`. To state this the
embedding uses a minimal heap: a list of `Gamestate` objects indexed by
address. `copy` allocates at a fresh address (the end of the store) and
in-place mutation is `List.set` at the mutated object's address. -/

/-- `successor` as it acts on the object store: allocate `self.copy` at a
fresh address, run `apply_move` in place on that address, and return the new
store together with the address of the returned successor object. -/
def Gamestate.successorAlloc (store : List Gamestate) (self : Nat)
    (agent_id : Nat) (move : Move) : List Gamestate × Nat :=
  let addr := store.length
  let store := store ++ [(store.getD self default).copy]
  let store := store.set addr (((store.getD addr default).applyMove agent_id move).1)
  (store, addr)

/-- `successors` on the object store: one `successor` call (hence one fresh
copy) per legal move of the agent, returning the final store and the
addresses of the successor objects. -/
def Gamestate.successorsAlloc (store : List Gamestate) (self : Nat)
    (agent_id : Nat) : List Gamestate × List Nat :=
  (((store.getD self default).legal_moves_vector
      (((store.getD self default).agents.getD agent_id none).getD Vector.zero)).foldl
    (fun acc move =>
      let r := Gamestate.successorAlloc acc.1 self agent_id move
      (r.1, acc.2 ++ [r.2]))
    (store, []))

/-- `PositionSearchRepresentation.successors` as a method call threading the
receiver: the body only *reads* `self.walls` (it never calls the grid's
`__setitem__`, the single mutation entry point), so the receiver after the
call is the receiver itself. -/
def PositionSearchRepresentation.successorsCall (r : PositionSearchRepresentation)
    (state : Vector) :
    (List (Vector × List Move × ℚ)) × PositionSearchRepresentation :=
  (r.successors state, r)

/-- `PositionSearchRepresentation.pathcost` as a method call threading the
receiver: `standard_pathcost` only reads the walls grid. -/
def PositionSearchRepresentation.pathcostCall (r : PositionSearchRepresentation)
    (path : List Move) : WithTop ℚ × PositionSearchRepresentation :=
  (r.pathcost path, r)

/-! ## Walks in the position search graph

Definitions used to *state* the search claims: wall-free action sequences
and reachability. -/

/-- `walkFree walls v p`: playing the moves `p` from `v`, every visited cell
(after each move) is wall-free. -/
def walkFree (walls : Array Bool) : Vector → List Move → Bool
  | _, [] => true
  | v, m :: rest => !walls.truthy (v + m.vector) && walkFree walls (v + m.vector) rest

/-- The cell reached by playing the moves `p` from `v`. -/
def walkEnd (v : Vector) (p : List Move) : Vector :=
  p.foldl (fun v m => v + m.vector) v

/-- A wall-free action sequence from `v` to `w` (any moves, `stop` allowed):
the comparison class "all wall-free paths" of the specification. -/
def FreeWalk (walls : Array Bool) (v : Vector) (p : List Move) (w : Vector) : Bool :=
  walkFree walls v p && decide (walkEnd v p = w)

/-- A path in the successor graph of `PositionSearchRepresentation`: a
wall-free action sequence of non-`stop` moves. -/
def GWalk (walls : Array Bool) (v : Vector) (p : List Move) (w : Vector) : Bool :=
  p.all (fun m => decide (m ≠ .stop)) && FreeWalk walls v p w

/-- `w` is reachable from `v`: some wall-free action sequence joins them. -/
def ReachableFrom (walls : Array Bool) (v w : Vector) : Prop :=
  ∃ p, FreeWalk walls v p w = true

/-- One step of the position-search successor graph: a non-`stop` move whose
destination is wall-free. -/
def Edge (walls : Array Bool) (v w : Vector) : Prop :=
  ∃ m : Move, m ≠ Move.stop ∧ w = v + m.vector ∧ walls.truthy w = false

/-- `distIs walls s w k`: `k` is the length of a shortest wall-free
non-`stop` walk from `s` to `w` (the graph distance in the successor
graph). -/
def distIs (walls : Array Bool) (s w : Vector) (k : Nat) : Prop :=
  (∃ p, GWalk walls s p w = true ∧ p.length = k) ∧
  ∀ q, GWalk walls s q w = true → k ≤ q.length

/-- The breadth-first loop invariant at the top of an iteration: the FIFO
frontier is `qa ++ qb` with the level-`L` nodes (paths of length `L`) ahead
of the level-`L+1` nodes; every vertex closer than `L` is explored; explored
vertices have distance at most `L`; every unexplored vertex at distance `L`
is enqueued at level `L`; every unexplored vertex at distance `L+1` is
either enqueued at level `L+1` or has an unexplored distance-`L`
shortest-path predecessor; the goal is never explored. -/
structure BFSInvAt (rep : PositionSearchRepresentation) (L : Nat)
    (qa qb : List Node) (E : List Vector) : Prop where
  sound : ∀ n ∈ qa ++ qb, GWalk rep.walls rep.start n.2.1 n.1 = true
  lenA : ∀ n ∈ qa, n.2.1.length = L
  lenB : ∀ n ∈ qb, n.2.1.length = L + 1
  below : ∀ x k, distIs rep.walls rep.start x k → k < L → x ∈ E
  expl : ∀ x ∈ E, ∃ k, distIs rep.walls rep.start x k ∧ k ≤ L
  covL : ∀ x, distIs rep.walls rep.start x L → x ∉ E → ∃ n ∈ qa, n.1 = x
  covL1 : ∀ x, distIs rep.walls rep.start x (L + 1) → x ∉ E →
    (∃ n ∈ qb, n.1 = x) ∨
    (∃ y, distIs rep.walls rep.start y L ∧ y ∉ E ∧ Edge rep.walls y x)
  goalE : rep.goal ∉ E

/-! ## Concrete fixtures used by witnesses and counterexamples -/

/-- A 1×2 board whose upper cell is a wall, with one agent (Pacman) on the
lower cell: moving up walks into the wall. -/
def gWall : Gamestate :=
  { statics := ⟨[[.empty, .wall]]⟩
    agents := [some ⟨0, 0⟩]
    starts := [some ⟨0, 0⟩]
    facings := [.stop]
    timers := [3]
    score := 7
    tick := 0 }

/-- A 2×1 wall-free board: Pacman at `(0,0)`, one ghost at `(1,0)` whose
scared timer is exactly `1`. -/
def gEncounter : Gamestate :=
  { statics := ⟨[[.empty], [.empty]]⟩
    agents := [some ⟨0, 0⟩, some ⟨1, 0⟩]
    starts := [some ⟨0, 0⟩, some ⟨1, 0⟩]
    facings := [.stop, .stop]
    timers := [0, 1]
    score := 0
    tick := 0 }

/-- A position-goal representation built from `gEncounter`, used as a
witness input. -/
def rep0 : PositionSearchRepresentation :=
  PositionSearchRepresentation.ofGamestate gEncounter ⟨1, 0⟩ (fun _ => 1)

/-- A 3×3 board whose only non-wall cell is the centre `(1, 1)`: the goal
`(0, 0)` is a wall cell, unreachable from the start `(1, 1)`. -/
def repClosed : PositionSearchRepresentation :=
  { start_state := ⟨1, 1⟩
    goal := ⟨0, 0⟩
    cost_fn := fun _ => 1
    walls := ⟨[[true, true, true], [true, false, true], [true, true, true]]⟩ }

/-- A 3×4 board enclosed by walls with a free two-cell corridor
`(1, 1)`–`(1, 2)`: the goal `(1, 2)` is one step above the start `(1, 1)`. -/
def repCorridor : PositionSearchRepresentation :=
  { start_state := ⟨1, 1⟩
    goal := ⟨1, 2⟩
    cost_fn := fun _ => 1
    walls := ⟨[[true, true, true, true], [true, false, false, true],
               [true, true, true, true]]⟩ }

/-! # Lemmas -/

theorem Gamestate.copy_eq (g : Gamestate) : g.copy = g := by
  cases g with
  | mk statics agents starts facings timers score tick =>
    simp [copy, Array.copy]

theorem Array.indicate_contains {α : Type} [DecidableEq α] (a : Array α)
    (value : α) (v : Vector) : (a.indicate value).contains v = a.contains v := by
  cases h : a.arr with
  | nil => simp [indicate, contains, h]
  | cons c cs => simp [indicate, contains, h]

theorem List.getD_set_self {α : Type} (l : List α) (i : Nat) (a d : α)
    (h : i < l.length) : (l.set i a).getD i d = a := by
  simp [List.getD_eq_getElem?_getD, List.getElem?_set_self', List.getElem?_eq_getElem h]

theorem List.getD_of_getD_some {α : Type} {l : List (Option α)} {i : Nat} {v : α}
    (h : l.getD i none = some v) : i < l.length := by
  by_contra hlen
  rw [List.getD_eq_getElem?_getD, List.getElem?_eq_none (by omega)] at h
  simp at h

theorem Array.getItem_indicate {α : Type} [DecidableEq α] (a : Array α)
    (value : α) (v : Vector) :
    (a.indicate value).getItem v
      = (a.getItem v).map (fun cell => decide (cell = value)) := by
  unfold Array.getItem
  rw [Array.indicate_contains]
  by_cases h : a.contains v = true
  · simp only [h, if_true, Array.indicate, List.getElem?_map]
    cases hx : a.arr[v.x.toNat]? with
    | none => simp
    | some col => simp [List.getElem?_map]
  · simp [h]

theorem Array.truthy_indicate_of_getItem {α : Type} [DecidableEq α]
    (a : Array α) (value cell : α) (v : Vector) (h : a.getItem v = some cell) :
    (a.indicate value).truthy v = decide (cell = value) := by
  simp [Array.truthy, Array.getItem_indicate, h]

theorem List.mem_drop_one_of_getD {α : Type} {l : List (Option α)} {i : Nat} {v : α}
    (hi : 1 ≤ i) (h : l.getD i none = some v) : some v ∈ l.drop 1 := by
  have hlen : i < l.length := List.getD_of_getD_some h
  rw [List.getD_eq_getElem?_getD, List.getElem?_eq_getElem hlen] at h
  simp only [Option.getD_some] at h
  have : (l.drop 1)[i - 1]? = some (some v) := by
    rw [List.getElem?_drop]
    rw [show 1 + (i - 1) = i by omega]
    rw [List.getElem?_eq_getElem hlen, h]
  exact List.getElem?_mem this

theorem Vector.add_zero_vector (v : Vector) : v + Move.stop.vector = v := by
  cases v
  simp [Move.vector, Vector.add_def]

/-! # Claims -/

/-- **C4.** For every gamestate, `win` holds iff the player is alive (not
absent) and no dot cells remain in the statics grid, `loss` holds iff the
player is absent, and `win` and `loss` are never both true of the same
state. -/
theorem c4_win_loss_terminal (g : Gamestate) :
    (g.win = true ↔ (g.pacman ≠ none ∧ g.dotsList = [])) ∧
    (g.loss = true ↔ g.pacman = none) ∧
    ¬(g.win = true ∧ g.loss = true) := by
  refine ⟨?_, ?_, ?_⟩
  · simp [Gamestate.win, Gamestate.loss, List.isEmpty_iff]
  · simp [Gamestate.loss]
  · simp [Gamestate.win, Gamestate.loss]
    exact fun h _ => h

/-- **C8.** For every `Array` and every 2-tuple index outside the array's
bounds (including negative coordinates), point lookup returns the sentinel
`None` instead of raising, and the corresponding indicator-view lookup reads
as falsy. -/
theorem c8_out_of_bounds_lookup {α : Type} [DecidableEq α] (a : Array α)
    (value : α) (v : Vector) (h : a.contains v = false) :
    a.getItem v = none ∧ (a.indicate value).truthy v = false := by
  constructor
  · simp [Array.getItem, h]
  · simp [Array.truthy, Array.getItem, Array.indicate_contains, h]

theorem c8_out_of_bounds_lookup_witness :
    (Array.contains ⟨[[LayoutObject.wall]]⟩ ⟨-1, 2⟩ = false) ∧
    (Array.getItem ⟨[[LayoutObject.wall]]⟩ ⟨-1, 2⟩ = none ∧
      (Array.indicate ⟨[[LayoutObject.wall]]⟩ LayoutObject.wall).truthy ⟨-1, 2⟩ = false) :=
  ⟨by decide, c8_out_of_bounds_lookup ⟨[[LayoutObject.wall]]⟩ LayoutObject.wall ⟨-1, 2⟩ (by decide)⟩

/-- **C10.** For every position whose own cell is not a wall,
`legal_moves_vector` contains the `stop` move (its delta is the zero vector,
so its destination is the current cell); consequently an alive agent standing
on a non-wall cell has a non-empty legal-move set. -/
theorem c10_stop_always_legal (g : Gamestate) (v : Vector) (i : Nat) (p : Vector)
    (hv : g.wallAt v = false) (_hip : g.agents.getD i none = some p)
    (hp : g.wallAt p = false) :
    Move.stop ∈ g.legal_moves_vector v ∧ g.legal_moves_vector p ≠ [] := by
  have key : ∀ w : Vector, g.wallAt w = false → Move.stop ∈ g.legal_moves_vector w := by
    intro w hw
    unfold Gamestate.legal_moves_vector
    rw [List.mem_filter]
    refine ⟨by simp [Move.enumList], ?_⟩
    rw [Vector.add_zero_vector, hw]
    rfl
  refine ⟨key v hv, fun hemp => ?_⟩
  have := key p hp
  rw [hemp] at this
  exact absurd this (List.not_mem_nil _)

theorem List.getD_set_ne {α : Type} (l : List α) {i j : Nat} (a d : α)
    (h : i ≠ j) : (l.set i a).getD j d = l.getD j d := by
  simp [List.getD_eq_getElem?_getD, List.getElem?_set_ne h]

theorem List.drop_one_set_zero {α : Type} (l : List α) (a : α) :
    (l.set 0 a).drop 1 = l.drop 1 := by
  cases l <;> simp

/-- **C2 (counterexample).** A scared adversary whose timer is exactly `1`
moves onto the player: the mover's own-timer decrement happens *before* the
encounter is resolved, so the resolution sees timer `0` — the player dies and
the score drops by the death penalty, instead of the adversary being
respawned with the kill bonus as the claim predicts for a positive pre-move
timer. -/
theorem c2_encounter_counterexample :
    gEncounter.timers.getD 1 0 = 1 ∧
    gEncounter.agents.getD 0 none = some ⟨0, 0⟩ ∧
    gEncounter.agents.getD 1 none = some ⟨1, 0⟩ ∧
    (⟨1, 0⟩ : Vector) + Move.left.vector = ⟨0, 0⟩ ∧
    (gEncounter.applyMove 1 .left).2 = false ∧
    (gEncounter.applyMove 1 .left).1.agents.getD 0 none = none ∧
    (gEncounter.applyMove 1 .left).1.score
      = gEncounter.score + Gamestate.SCORE_DIE_PENALTY ∧
    ¬((gEncounter.applyMove 1 .left).1.score
        = gEncounter.score + Gamestate.SCORE_GET_GHOST) ∧
    ¬((gEncounter.applyMove 1 .left).1.agents.getD 1 none
          = gEncounter.starts.getD 1 none ∧
        (gEncounter.applyMove 1 .left).1.agents.getD 0 none ≠ none) := by
  decide

/-- **C2 (amended).** Encounter resolution after one `apply_move`, in both
directions. When the *player* moves onto the adversary's cell (an otherwise
empty cell), the adversary's timer is untouched: a positive timer means the
adversary is respawned at its start with timer reset to `0` and the
resolution adds the kill bonus on top of the player's per-turn penalty, and a
zero timer means the player becomes absent with the death penalty on top of
the per-turn penalty. When the *adversary* moves onto the player, its own
timer is first decremented, so the adversary is eaten exactly when its
pre-move timer is at least `2` (score rises by exactly the kill bonus — no
per-turn penalty for adversaries), while a pre-move timer of `1` or `0`
kills the player (score drops by exactly the death penalty). -/
theorem c2_encounter_resolution (g : Gamestate) (gid : Nat) (p q : Vector) (mv : Move)
    (hgid : 1 ≤ gid) (hlen : gid < g.agents.length) (htlen : gid < g.timers.length)
    (hpac : g.agents.getD 0 none = some p)
    (hghost : g.agents.getD gid none = some q) :
    (p + mv.vector = q → g.wallAt q = false →
      (g.agents.drop 1).indexOf (some q) = gid - 1 →
      g.statics.getItem q = some .empty →
      ((g.applyMove 0 mv).2 = false ∧
        (g.timers.getD gid 0 ≠ 0 →
          (g.applyMove 0 mv).1.agents.getD gid none = g.starts.getD gid none ∧
          (g.applyMove 0 mv).1.timers.getD gid 0 = 0 ∧
          (g.applyMove 0 mv).1.agents.getD 0 none = some q ∧
          (g.applyMove 0 mv).1.score
            = g.score + Gamestate.SCORE_TICK_PENALTY + Gamestate.SCORE_GET_GHOST) ∧
        (g.timers.getD gid 0 = 0 →
          (g.applyMove 0 mv).1.agents.getD 0 none = none ∧
          (g.applyMove 0 mv).1.score
            = g.score + Gamestate.SCORE_TICK_PENALTY + Gamestate.SCORE_DIE_PENALTY))) ∧
    (q + mv.vector = p → g.wallAt p = false →
      ((g.applyMove gid mv).2 = false ∧
        (2 ≤ g.timers.getD gid 0 →
          (g.applyMove gid mv).1.agents.getD gid none = g.starts.getD gid none ∧
          (g.applyMove gid mv).1.timers.getD gid 0 = 0 ∧
          (g.applyMove gid mv).1.agents.getD 0 none = some p ∧
          (g.applyMove gid mv).1.score = g.score + Gamestate.SCORE_GET_GHOST) ∧
        (g.timers.getD gid 0 ≤ 1 →
          (g.applyMove gid mv).1.agents.getD 0 none = none ∧
          (g.applyMove gid mv).1.agents.getD gid none = some p ∧
          (g.applyMove gid mv).1.score = g.score + Gamestate.SCORE_DIE_PENALTY))) := by
  have hgid0 : gid ≠ 0 := by omega
  have hal0 : 0 < g.agents.length := by omega
  constructor
  · intro hstep hwallq hidx hcell
    have hdot : (g.statics.indicate LayoutObject.dot).truthy q = false := by
      rw [Array.truthy_indicate_of_getItem g.statics _ _ _ hcell]
      rfl
    have hpel : (g.statics.indicate LayoutObject.pellet).truthy q = false := by
      rw [Array.truthy_indicate_of_getItem g.statics _ _ _ hcell]
      rfl
    have hcont : (g.agents.drop 1).contains (some q) = true :=
      List.elem_eq_true_of_mem (List.mem_drop_one_of_getD hgid hghost)
    have hsub : gid - 1 + 1 = gid := by omega
    rw [Gamestate.wallAt] at hwallq
    by_cases htg : g.timers.getD gid 0 = 0
    · by_cases ht0 : g.timers.getD 0 0 = 0
      · unfold Gamestate.applyMove
        rw [hpac]
        simp only [hstep, ite_true]
        rw [if_neg (show ¬(g.timers.getD 0 0 ≠ 0) from fun h2 => h2 ht0)]
        dsimp only [Gamestate.wallAt]
        rw [if_neg (show ¬((g.statics.indicate LayoutObject.wall).truthy q = true) by
          simp [hwallq])]
        rw [List.drop_one_set_zero]
        rw [if_pos hcont]
        rw [hidx, hsub]
        unfold Gamestate.resolveEncounter
        dsimp only
        rw [if_neg (show ¬(g.timers.getD gid 0 ≠ 0) from fun h2 => h2 htg)]
        unfold Gamestate.kill
        simp only [ite_true]
        dsimp only [Gamestate.dotAt, Gamestate.pelletAt]
        rw [if_neg (show ¬((g.statics.indicate LayoutObject.dot).truthy q = true) by
          simp [hdot])]
        rw [if_neg (show ¬((g.statics.indicate LayoutObject.pellet).truthy q = true) by
          simp [hpel])]
        refine ⟨by trivial, fun htg2 => absurd htg htg2, fun _ => ⟨?_, ?_⟩⟩
        · simp [List.getD_set_self, hal0]
        · rfl
      · unfold Gamestate.applyMove
        rw [hpac]
        simp only [hstep, ite_true]
        rw [if_pos (show g.timers.getD 0 0 ≠ 0 from ht0)]
        dsimp only [Gamestate.wallAt]
        rw [if_neg (show ¬((g.statics.indicate LayoutObject.wall).truthy q = true) by
          simp [hwallq])]
        rw [List.drop_one_set_zero]
        rw [if_pos hcont]
        rw [hidx, hsub]
        unfold Gamestate.resolveEncounter
        dsimp only
        have hgt : (g.timers.set 0 (g.timers.getD 0 0 - 1)).getD gid 0
            = g.timers.getD gid 0 := List.getD_set_ne _ _ _ (by omega)
        rw [if_neg (show ¬((g.timers.set 0 (g.timers.getD 0 0 - 1)).getD gid 0 ≠ 0)
          from fun h2 => h2 (hgt.trans htg))]
        unfold Gamestate.kill
        simp only [ite_true]
        dsimp only [Gamestate.dotAt, Gamestate.pelletAt]
        rw [if_neg (show ¬((g.statics.indicate LayoutObject.dot).truthy q = true) by
          simp [hdot])]
        rw [if_neg (show ¬((g.statics.indicate LayoutObject.pellet).truthy q = true) by
          simp [hpel])]
        refine ⟨by trivial, fun htg2 => absurd htg htg2, fun _ => ⟨?_, ?_⟩⟩
        · simp [List.getD_set_self, hal0]
        · rfl
    · by_cases ht0 : g.timers.getD 0 0 = 0
      · unfold Gamestate.applyMove
        rw [hpac]
        simp only [hstep, ite_true]
        rw [if_neg (show ¬(g.timers.getD 0 0 ≠ 0) from fun h2 => h2 ht0)]
        dsimp only [Gamestate.wallAt]
        rw [if_neg (show ¬((g.statics.indicate LayoutObject.wall).truthy q = true) by
          simp [hwallq])]
        rw [List.drop_one_set_zero]
        rw [if_pos hcont]
        rw [hidx, hsub]
        unfold Gamestate.resolveEncounter
        dsimp only
        rw [if_pos (show g.timers.getD gid 0 ≠ 0 from htg)]
        unfold Gamestate.kill
        rw [if_neg hgid0]
        dsimp only [Gamestate.dotAt, Gamestate.pelletAt]
        rw [if_neg (show ¬((g.statics.indicate LayoutObject.dot).truthy q = true) by
          simp [hdot])]
        rw [if_neg (show ¬((g.statics.indicate LayoutObject.pellet).truthy q = true) by
          simp [hpel])]
        refine ⟨by trivial, fun _ => ⟨?_, ?_, ?_, ?_⟩, fun htg2 => absurd htg2 htg⟩
        · simp [List.getD_set_self, hlen]
        · simp [List.getD_set_self, htlen]
        · rw [List.getD_set_ne _ (g.starts.getD gid none) none hgid0,
            List.getD_set_self _ _ _ _ (by simpa using hal0)]
        · rfl
      · unfold Gamestate.applyMove
        rw [hpac]
        simp only [hstep, ite_true]
        rw [if_pos (show g.timers.getD 0 0 ≠ 0 from ht0)]
        dsimp only [Gamestate.wallAt]
        rw [if_neg (show ¬((g.statics.indicate LayoutObject.wall).truthy q = true) by
          simp [hwallq])]
        rw [List.drop_one_set_zero]
        rw [if_pos hcont]
        rw [hidx, hsub]
        unfold Gamestate.resolveEncounter
        dsimp only
        have hgt : (g.timers.set 0 (g.timers.getD 0 0 - 1)).getD gid 0
            = g.timers.getD gid 0 := List.getD_set_ne _ _ _ (by omega)
        rw [if_pos (show (g.timers.set 0 (g.timers.getD 0 0 - 1)).getD gid 0 ≠ 0
          from hgt.symm ▸ htg)]
        unfold Gamestate.kill
        rw [if_neg hgid0]
        dsimp only [Gamestate.dotAt, Gamestate.pelletAt]
        rw [if_neg (show ¬((g.statics.indicate LayoutObject.dot).truthy q = true) by
          simp [hdot])]
        rw [if_neg (show ¬((g.statics.indicate LayoutObject.pellet).truthy q = true) by
          simp [hpel])]
        refine ⟨by trivial, fun _ => ⟨?_, ?_, ?_, ?_⟩, fun htg2 => absurd htg2 htg⟩
        · simp [List.getD_set_self, hlen]
        · simp [List.getD_set_self, htlen]
        · rw [List.getD_set_ne _ (g.starts.getD gid none) none hgid0,
            List.getD_set_self _ _ _ _ (by simpa using hal0)]
        · rfl
  · intro hstep hwallp
    rw [Gamestate.wallAt] at hwallp
    by_cases ht0 : g.timers.getD gid 0 = 0
    · unfold Gamestate.applyMove
      rw [hghost]
      simp only [hstep]
      simp only [if_neg hgid0]
      rw [if_neg (show ¬(g.timers.getD gid 0 ≠ 0) from fun h2 => h2 ht0)]
      dsimp only [Gamestate.wallAt]
      rw [if_neg (show ¬((g.statics.indicate LayoutObject.wall).truthy p = true) by
        simp [hwallp])]
      rw [List.getD_set_ne g.agents (some p) none hgid0, hpac]
      rw [if_pos rfl]
      unfold Gamestate.resolveEncounter
      dsimp only
      rw [if_neg (show ¬(g.timers.getD gid 0 ≠ 0) from fun h2 => h2 ht0)]
      unfold Gamestate.kill
      simp only [ite_true]
      refine ⟨by trivial, fun h2 => absurd h2 (by omega), fun _ => ⟨?_, ?_, ?_⟩⟩
      · rw [List.getD_set_self _ _ _ _ (by simpa using hal0)]
      · rw [List.getD_set_ne (g.agents.set gid (some p)) (none : Option Vector) none
            (show (0 : Nat) ≠ gid by omega),
          List.getD_set_self _ _ _ _ (by simpa using hlen)]
      · simp
    · by_cases ht1 : g.timers.getD gid 0 = 1
      · unfold Gamestate.applyMove
        rw [hghost]
        simp only [hstep]
        simp only [if_neg hgid0]
        rw [if_pos (show g.timers.getD gid 0 ≠ 0 from ht0)]
        dsimp only [Gamestate.wallAt]
        rw [if_neg (show ¬((g.statics.indicate LayoutObject.wall).truthy p = true) by
          simp [hwallp])]
        rw [List.getD_set_ne g.agents (some p) none hgid0, hpac]
        rw [if_pos rfl]
        unfold Gamestate.resolveEncounter
        dsimp only
        have hres : (g.timers.set gid (g.timers.getD gid 0 - 1)).getD gid 0 = 0 := by
          rw [List.getD_set_self _ _ _ _ (by simpa using htlen), ht1]
        rw [if_neg (show ¬((g.timers.set gid (g.timers.getD gid 0 - 1)).getD gid 0 ≠ 0)
          from fun h2 => h2 hres)]
        unfold Gamestate.kill
        simp only [ite_true]
        refine ⟨by trivial, fun h2 => absurd h2 (by omega), fun _ => ⟨?_, ?_, ?_⟩⟩
        · rw [List.getD_set_self _ _ _ _ (by simpa using hal0)]
        · rw [List.getD_set_ne (g.agents.set gid (some p)) (none : Option Vector) none
              (show (0 : Nat) ≠ gid by omega),
            List.getD_set_self _ _ _ _ (by simpa using hlen)]
        · simp
      · unfold Gamestate.applyMove
        rw [hghost]
        simp only [hstep]
        simp only [if_neg hgid0]
        rw [if_pos (show g.timers.getD gid 0 ≠ 0 from ht0)]
        dsimp only [Gamestate.wallAt]
        rw [if_neg (show ¬((g.statics.indicate LayoutObject.wall).truthy p = true) by
          simp [hwallp])]
        rw [List.getD_set_ne g.agents (some p) none hgid0, hpac]
        rw [if_pos rfl]
        unfold Gamestate.resolveEncounter
        dsimp only
        have hres : (g.timers.set gid (g.timers.getD gid 0 - 1)).getD gid 0
            = g.timers.getD gid 0 - 1 :=
          List.getD_set_self _ _ _ _ (by simpa using htlen)
        rw [if_pos (show (g.timers.set gid (g.timers.getD gid 0 - 1)).getD gid 0 ≠ 0
          from by rw [hres]; omega)]
        unfold Gamestate.kill
        rw [if_neg hgid0]
        refine ⟨by trivial, fun _ => ⟨?_, ?_, ?_, ?_⟩, fun h1 => absurd h1 (by omega)⟩
        · simp [List.getD_set_self, hlen]
        · simp [List.getD_set_self, htlen]
        · rw [List.set_set, List.getD_set_ne g.agents (g.starts.getD gid none) none hgid0,
            hpac]
        · simp

theorem c2_encounter_resolution_witness :
    (1 ≤ 1 ∧ 1 < gEncounter.agents.length ∧ 1 < gEncounter.timers.length ∧
      gEncounter.agents.getD 0 none = some ⟨0, 0⟩ ∧
      gEncounter.agents.getD 1 none = some ⟨1, 0⟩) ∧
    ((gEncounter.applyMove 1 .left).2 = false ∧
      (gEncounter.applyMove 1 .left).1.agents.getD 0 none = none ∧
      (gEncounter.applyMove 1 .left).1.agents.getD 1 none = some ⟨0, 0⟩ ∧
      (gEncounter.applyMove 1 .left).1.score
        = gEncounter.score + Gamestate.SCORE_DIE_PENALTY) :=
  ⟨⟨by decide, by decide, by decide, by decide, by decide⟩, by
    have h :=
      (c2_encounter_resolution gEncounter 1 ⟨0, 0⟩ ⟨1, 0⟩ .left (by decide) (by decide)
        (by decide) (by decide) (by decide)).2 (by decide) (by decide)
    exact ⟨h.1, (h.2.2 (by decide)).1, (h.2.2 (by decide)).2.1,
      (h.2.2 (by decide)).2.2⟩⟩

/-- **C9.** The wall-collision failure of `apply_move` is not atomic: when
the destination cell is a wall the `RuntimeError` is raised only after the
agent's position has been set to the wall cell, its facing set to the move,
its scared timer (if positive) decremented, and — for the player — the score
charged with the per-turn penalty plus the death penalty. -/
theorem c9_wall_failure_not_atomic (g : Gamestate) (i : Nat) (m : Move) (v : Vector)
    (halive : g.agents.getD i none = some v)
    (hfl : i < g.facings.length) (htl : i < g.timers.length)
    (hwall : g.wallAt (v + m.vector) = true) :
    (g.applyMove i m).2 = true ∧
    (g.applyMove i m).1.agents.getD i none = some (v + m.vector) ∧
    (g.applyMove i m).1.facings.getD i .stop = m ∧
    (g.timers.getD i 0 ≠ 0 →
      (g.applyMove i m).1.timers.getD i 0 = g.timers.getD i 0 - 1) ∧
    (g.timers.getD i 0 = 0 → (g.applyMove i m).1.timers.getD i 0 = 0) ∧
    (i = 0 →
      (g.applyMove i m).1.score
        = g.score + Gamestate.SCORE_TICK_PENALTY + Gamestate.SCORE_DIE_PENALTY) ∧
    (i ≠ 0 → (g.applyMove i m).1.score = g.score) := by
  have hal : i < g.agents.length := List.getD_of_getD_some halive
  rw [Gamestate.wallAt] at hwall
  unfold Gamestate.applyMove
  simp only [halive]
  rcases eq_or_ne i 0 with hi | hi
  · subst hi
    by_cases ht : g.timers.getD 0 0 = 0 <;>
      simp_all [Gamestate.wallAt, List.getD_set_self, hal, hfl, htl,
        List.getD_eq_getElem?_getD]
  · by_cases ht : g.timers.getD i 0 = 0 <;>
      simp_all [Gamestate.wallAt, List.getD_set_self, hal, hfl, htl,
        List.getD_eq_getElem?_getD, hi]

theorem c9_wall_failure_not_atomic_witness :
    (gWall.agents.getD 0 none = some ⟨0, 0⟩ ∧ 0 < gWall.facings.length ∧
      0 < gWall.timers.length ∧ gWall.wallAt (⟨0, 0⟩ + Move.up.vector) = true) ∧
    ((gWall.applyMove 0 .up).2 = true ∧
      (gWall.applyMove 0 .up).1.agents.getD 0 none = some (⟨0, 0⟩ + Move.up.vector) ∧
      (gWall.applyMove 0 .up).1.facings.getD 0 .stop = .up ∧
      (gWall.timers.getD 0 0 ≠ 0 →
        (gWall.applyMove 0 .up).1.timers.getD 0 0 = gWall.timers.getD 0 0 - 1) ∧
      (gWall.timers.getD 0 0 = 0 → (gWall.applyMove 0 .up).1.timers.getD 0 0 = 0) ∧
      ((0 : Nat) = 0 →
        (gWall.applyMove 0 .up).1.score
          = gWall.score + Gamestate.SCORE_TICK_PENALTY + Gamestate.SCORE_DIE_PENALTY) ∧
      ((0 : Nat) ≠ 0 → (gWall.applyMove 0 .up).1.score = gWall.score)) :=
  ⟨⟨by decide, by decide, by decide, by decide⟩,
    c9_wall_failure_not_atomic gWall 0 .up ⟨0, 0⟩ (by decide) (by decide) (by decide)
      (by decide)⟩

theorem c10_stop_always_legal_witness :
    ((default : Gamestate).wallAt ⟨0, 0⟩ = false) ∧
    ({ (default : Gamestate) with agents := [some ⟨0, 0⟩] } : Gamestate).agents.getD 0 none
        = some ⟨0, 0⟩ ∧
    (Move.stop ∈ ({ (default : Gamestate) with agents := [some ⟨0, 0⟩] } : Gamestate).legal_moves_vector ⟨0, 0⟩ ∧
      ({ (default : Gamestate) with agents := [some ⟨0, 0⟩] } : Gamestate).legal_moves_vector ⟨0, 0⟩ ≠ []) :=
  ⟨by decide, by decide,
    c10_stop_always_legal _ ⟨0, 0⟩ 0 ⟨0, 0⟩ (by decide) (by decide) (by decide)⟩

/-! ### Transpose on rectangular grids (for C7) -/

theorem Array.rowAt_map_tail {α : Type} (l : List (List α)) (i : Nat) :
    Array.rowAt (l.map List.tail) i = Array.rowAt l (i + 1) := by
  unfold Array.rowAt
  rw [List.filterMap_map]
  congr 1
  funext col
  exact List.getElem?_tail col i

theorem Array.rowAt_length {α : Type} (l : List (List α)) (n i : Nat)
    (h : ∀ d ∈ l, d.length = n) (hi : i < n) :
    (Array.rowAt l i).length = l.length := by
  induction l with
  | nil => rfl
  | cons x xs ih =>
    have hx : x.length = n := h x (by simp)
    have hsome : x[i]? = some (x.get ⟨i, by omega⟩) := by
      rw [List.getElem?_eq_getElem (by omega)]
      simp
    unfold Array.rowAt
    rw [List.filterMap_cons, hsome]
    have hrest := ih (fun d hd => h d (by simp [hd]))
    unfold Array.rowAt at hrest
    simp [hrest]

theorem Array.rowAt_getElem? {α : Type} (l : List (List α)) (n : Nat) :
    ∀ (j : Nat) (cl : List α), (∀ d ∈ l, d.length = n) → l[j]? = some cl →
      ∀ i, i < n → (Array.rowAt l i)[j]? = cl[i]? := by
  induction l with
  | nil =>
    intro j cl _ hj
    simp at hj
  | cons d ds ih =>
    intro j cl hrect hj i hi
    have hd : d.length = n := hrect d (by simp)
    have hsome : d[i]? = some (d.get ⟨i, by omega⟩) := by
      rw [List.getElem?_eq_getElem (by omega)]
      simp
    unfold Array.rowAt
    rw [List.filterMap_cons, hsome]
    cases j with
    | zero =>
      simp only [List.getElem?_cons_zero, Option.some_inj] at hj
      subst hj
      simp [hsome]
    | succ j =>
      simp only [List.getElem?_cons_succ] at hj
      have hrest := ih j cl (fun e he => hrect e (by simp [he])) hj i hi
      unfold Array.rowAt at hrest
      simp [hrest]

theorem List.range_filterMap_getElem? {α : Type} (xs : List α) :
    (List.range xs.length).filterMap (fun i => xs[i]?) = xs := by
  induction xs with
  | nil => rfl
  | cons a xs ih =>
    rw [show (a :: xs).length = xs.length + 1 from rfl, List.range_succ_eq_map,
      List.filterMap_cons, List.filterMap_map]
    have hcong : ∀ i ∈ List.range xs.length,
        ((fun i => (a :: xs)[i]?) ∘ Nat.succ) i = xs[i]? := by
      intro i _
      simp
    rw [List.filterMap_congr hcong, ih]
    simp

theorem Array.pyZipAux_rect {α : Type} (n : Nat) :
    ∀ (l : List (List α)), (∀ c ∈ l, c.length = n) → l ≠ [] →
      Array.pyZipAux n l = (List.range n).map (Array.rowAt l) := by
  induction n with
  | zero =>
    intro l _ _
    simp [Array.pyZipAux]
  | succ n ih =>
    intro l h hne
    have hall : l.all (fun c => !c.isEmpty) = true := by
      rw [List.all_eq_true]
      intro c hc
      have := h c hc
      cases c with
      | nil => simp at this
      | cons a c => simp
    rw [Array.pyZipAux, if_pos hall]
    have htail : ∀ c ∈ l.map List.tail, c.length = n := by
      intro c hc
      rw [List.mem_map] at hc
      obtain ⟨c0, hc0, rfl⟩ := hc
      have := h c0 hc0
      simp [List.length_tail, this]
    have hnetail : l.map List.tail ≠ [] := by simpa using hne
    rw [ih _ htail hnetail, List.range_succ_eq_map, List.map_cons, List.map_map]
    congr 1
    · unfold Array.rowAt
      apply List.filterMap_congr
      intro c _
      exact List.head?_eq_getElem? c
    · apply List.map_congr_left
      intro i _
      exact Array.rowAt_map_tail l i

theorem Array.transpose_arr_of_rect {α : Type} (a : Array α) (n : Nat)
    (hrect : a.Rect n) (hne : a.arr ≠ []) :
    a.transpose.arr = (List.range n).map (Array.rowAt a.arr) := by
  unfold Array.transpose
  cases harr : a.arr with
  | nil => exact absurd harr hne
  | cons c cs =>
    have hc : c.length = n := hrect c (by rw [harr]; simp)
    dsimp only
    rw [hc, ← harr]
    exact Array.pyZipAux_rect n a.arr (fun d hd => hrect d hd) (by rw [harr]; simp)

theorem Array.transpose_transpose_of_rect {α : Type} (a : Array α) (n : Nat)
    (hrect : a.Rect n) (hcases : a.arr = [] ∨ 0 < n) :
    a.transpose.transpose = a := by
  rcases hcases with hnil | hn
  · cases a with
    | mk arr =>
      cases arr with
      | nil => rfl
      | cons c cs => simp at hnil
  · by_cases hne : a.arr = []
    · cases a with
      | mk arr =>
        cases arr with
        | nil => rfl
        | cons c cs => simp at hne
    · have h1 : a.transpose.arr = (List.range n).map (Array.rowAt a.arr) :=
        Array.transpose_arr_of_rect a n hrect hne
      have hrows : a.transpose.Rect a.arr.length := by
        intro r hr
        rw [h1, List.mem_map] at hr
        obtain ⟨i, hi, rfl⟩ := hr
        rw [List.mem_range] at hi
        exact Array.rowAt_length a.arr n i hrect hi
      have hrowsne : a.transpose.arr ≠ [] := by
        rw [h1]
        simp [List.range_eq_nil]
        omega
      have h2 : a.transpose.transpose.arr
          = (List.range a.arr.length).map (Array.rowAt a.transpose.arr) :=
        Array.transpose_arr_of_rect a.transpose a.arr.length hrows hrowsne
      have hext : ∀ (x y : Array α), x.arr = y.arr → x = y := by
        intro x y hxy
        cases x
        cases y
        simpa using hxy
      cases a with
      | mk arr =>
        apply hext
        rw [h2]
        apply List.ext_getElem
        · simp
        · intro j hj hj2
          simp only [List.getElem_map, List.getElem_range]
          have hcol : arr[j]? = some (arr.get ⟨j, by simpa using hj⟩) := by
            rw [List.getElem?_eq_getElem (by simpa using hj)]
            simp
          set colj := arr.get ⟨j, by simpa using hj⟩ with hcj
          have hclen : colj.length = n := hrect colj (by simp [hcj, List.get_mem])
          have hcell : ∀ i, i < n → (Array.rowAt arr i)[j]? = colj[i]? := by
            intro i hi
            exact Array.rowAt_getElem? arr n j colj hrect hcol i hi
          have hrow : Array.rowAt ((Array.mk arr).transpose.arr) j = colj := by
            rw [h1, Array.rowAt, List.filterMap_map]
            have hcong : ∀ i ∈ List.range n,
                ((fun col => col[j]?) ∘ Array.rowAt arr) i = colj[i]? := by
              intro i hi
              rw [List.mem_range] at hi
              exact hcell i hi
            rw [List.filterMap_congr hcong]
            rw [← hclen]
            exact List.range_filterMap_getElem? colj
          rw [hrow]
          simp [colj]

theorem Array.transpose_rect {α : Type} (a : Array α) (n : Nat)
    (hrect : a.Rect n) (hne : a.arr ≠ []) :
    a.transpose.Rect a.arr.length := by
  intro r hr
  rw [Array.transpose_arr_of_rect a n hrect hne, List.mem_map] at hr
  obtain ⟨i, hi, rfl⟩ := hr
  rw [List.mem_range] at hi
  exact Array.rowAt_length a.arr n i hrect hi

theorem Array.transpose_ne_nil {α : Type} (a : Array α) (n : Nat)
    (hrect : a.Rect n) (hne : a.arr ≠ []) (hn : 0 < n) :
    a.transpose.arr ≠ [] := by
  rw [Array.transpose_arr_of_rect a n hrect hne]
  simp [List.range_eq_nil]
  omega

theorem Array.mirror_hor_mirror_hor {α : Type} (a : Array α) :
    a.mirror_hor.mirror_hor = a := by
  cases a
  simp [Array.mirror_hor]

theorem Array.mirror_ver_mirror_ver_of_rect {α : Type} (a : Array α) (n : Nat)
    (hrect : a.Rect n) (hcases : a.arr = [] ∨ 0 < n) :
    a.mirror_ver.mirror_ver = a := by
  by_cases hne : a.arr = []
  · cases a with
    | mk arr =>
      cases arr with
      | nil => rfl
      | cons c cs => simp at hne
  · have hn : 0 < n := by
      rcases hcases with h | h
      · exact absurd h hne
      · exact h
    have hm : 0 < a.arr.length := List.length_pos.mpr hne
    have hTrect : a.transpose.Rect a.arr.length := Array.transpose_rect a n hrect hne
    have hTne : a.transpose.arr ≠ [] := Array.transpose_ne_nil a n hrect hne hn
    have hMrect : a.transpose.mirror_hor.Rect a.arr.length := by
      intro r hr
      exact hTrect r (by simpa [Array.mirror_hor] using hr)
    have h1 : a.transpose.mirror_hor.transpose.transpose = a.transpose.mirror_hor :=
      Array.transpose_transpose_of_rect _ _ hMrect (Or.inr hm)
    unfold Array.mirror_ver
    rw [h1, Array.mirror_hor_mirror_hor]
    exact Array.transpose_transpose_of_rect a n hrect hcases

/-! ### Object-store frame lemmas (for C6) -/

theorem Gamestate.successorAlloc_preserves (store : List Gamestate)
    (self agent_id : Nat) (mv : Move) (j : Nat) (hj : j < store.length) :
    (Gamestate.successorAlloc store self agent_id mv).1.getD j default
        = store.getD j default ∧
    (Gamestate.successorAlloc store self agent_id mv).1.length = store.length + 1 := by
  unfold Gamestate.successorAlloc
  constructor
  · rw [List.getD_set_ne _ _ _ (by omega)]
    simp [List.getD_eq_getElem?_getD, List.getElem?_append_left hj]
  · simp

theorem Gamestate.successorsAlloc_foldl_preserves (self agent_id : Nat) :
    ∀ (moves : List Move) (st : List Gamestate) (acc : List Nat) (j : Nat),
      j < st.length →
      (moves.foldl
        (fun acc move =>
          let r := Gamestate.successorAlloc acc.1 self agent_id move
          (r.1, acc.2 ++ [r.2]))
        (st, acc)).1.getD j default = st.getD j default := by
  intro moves
  induction moves with
  | nil =>
    intro st acc j _
    rfl
  | cons mv moves ih =>
    intro st acc j hj
    rw [List.foldl_cons]
    have hpres := Gamestate.successorAlloc_preserves st self agent_id mv j hj
    have hlen : j < (Gamestate.successorAlloc st self agent_id mv).1.length := by
      omega
    have := ih (Gamestate.successorAlloc st self agent_id mv).1
      (acc ++ [(Gamestate.successorAlloc st self agent_id mv).2]) j hlen
    exact this.trans hpres.1

/-- **C6.** Successor enumeration and path-cost evaluation are pure with
respect to the world state. In the object-store model: a `successor` call
allocates the fresh copy at a new address and mutates only that address, so
the receiver object (indeed every pre-existing object) is unchanged, while
the returned object holds `apply_move` of a copy of the receiver;
`successors` repeats this once per legal move and likewise leaves every
pre-existing object unchanged. The representation's `successors` and
`pathcost` only read the walls grid, so the receiver representation
(including its underlying walls) after those calls is the receiver itself. -/
theorem c6_successor_purity (store : List Gamestate) (self agent_id : Nat)
    (mv : Move) (j : Nat) (hself : self < store.length) (hj : j < store.length)
    (r : PositionSearchRepresentation) (s : Vector) (path : List Move) :
    (Gamestate.successorAlloc store self agent_id mv).1.getD self default
        = store.getD self default ∧
    (Gamestate.successorAlloc store self agent_id mv).1.getD j default
        = store.getD j default ∧
    (Gamestate.successorAlloc store self agent_id mv).2 ≠ self ∧
    (Gamestate.successorAlloc store self agent_id mv).1.getD
        (Gamestate.successorAlloc store self agent_id mv).2 default
      = (store.getD self default).successor agent_id mv ∧
    (Gamestate.successorsAlloc store self agent_id).1.getD j default
        = store.getD j default ∧
    (r.successorsCall s).2 = r ∧
    (r.pathcostCall path).2 = r := by
  refine ⟨(Gamestate.successorAlloc_preserves store self agent_id mv self hself).1,
    (Gamestate.successorAlloc_preserves store self agent_id mv j hj).1,
    by simp [Gamestate.successorAlloc]; omega,
    ?_,
    Gamestate.successorsAlloc_foldl_preserves self agent_id _ store [] j hj,
    rfl, rfl⟩
  unfold Gamestate.successorAlloc
  simp only
  rw [List.getD_set_self _ _ _ _ (by simp)]
  rw [Gamestate.successor]
  congr 1
  rw [List.getD_eq_getElem?_getD, List.getElem?_append_right (by omega)]
  simp

theorem c6_successor_purity_witness :
    ((0 : Nat) < [gEncounter].length ∧ (0 : Nat) < [gEncounter].length) ∧
    ((Gamestate.successorAlloc [gEncounter] 0 0 .right).1.getD 0 default
        = [gEncounter].getD 0 default ∧
      (Gamestate.successorAlloc [gEncounter] 0 0 .right).1.getD 0 default
        = [gEncounter].getD 0 default ∧
      (Gamestate.successorAlloc [gEncounter] 0 0 .right).2 ≠ 0 ∧
      (Gamestate.successorAlloc [gEncounter] 0 0 .right).1.getD
          (Gamestate.successorAlloc [gEncounter] 0 0 .right).2 default
        = ([gEncounter].getD 0 default).successor 0 .right ∧
      (Gamestate.successorsAlloc [gEncounter] 0 0).1.getD 0 default
        = [gEncounter].getD 0 default ∧
      (rep0.successorsCall ⟨0, 0⟩).2 = rep0 ∧
      (rep0.pathcostCall []).2 = rep0) :=
  ⟨⟨by decide, by decide⟩,
    c6_successor_purity [gEncounter] 0 0 .right 0 (by decide) (by decide) rep0
      ⟨0, 0⟩ []⟩

/-- **C7 (counterexample).** A rectangular array with two empty columns:
`zip` truncates it to nothing, so both double-transpose and double
vertical-mirror return the empty array, which `Array.__eq__` (plain list
equality of the stored columns) distinguishes from the original. -/
theorem c7_round_trips_counterexample :
    (⟨[[], []]⟩ : Array Nat).Rect 0 ∧
    (⟨[[], []]⟩ : Array Nat).transpose.transpose ≠ (⟨[[], []]⟩ : Array Nat) ∧
    (⟨[[], []]⟩ : Array Nat).mirror_ver.mirror_ver ≠ (⟨[[], []]⟩ : Array Nat) := by
  refine ⟨?_, by decide, by decide⟩
  intro cl hcl
  fin_cases hcl <;> rfl

/-- **C7 (amended).** `opposite` is an involution on every `Move`; and for
every rectangular `Array` that is non-degenerate (either no columns at all,
or columns of positive length), transposing twice and mirroring vertically
twice both return an array equal (cell for cell, i.e. under `Array.__eq__`)
to the original. Degenerate rectangular arrays with at least one column of
length `0` are collapsed to the empty array by Python's `zip` and are the
only exceptions. -/
theorem c7_round_trips {α : Type} (m : Move) (a : Array α) (n : Nat)
    (hrect : a.Rect n) (hdeg : a.arr = [] ∨ 0 < n) :
    m.opposite.opposite = m ∧
    a.transpose.transpose = a ∧
    a.mirror_ver.mirror_ver = a :=
  ⟨by cases m <;> rfl,
    Array.transpose_transpose_of_rect a n hrect hdeg,
    Array.mirror_ver_mirror_ver_of_rect a n hrect hdeg⟩

theorem c7_round_trips_witness :
    ((⟨[[1, 2], [3, 4]]⟩ : Array Nat).Rect 2 ∧
      ((⟨[[1, 2], [3, 4]]⟩ : Array Nat).arr = [] ∨ 0 < 2)) ∧
    (Move.left.opposite.opposite = Move.left ∧
      (⟨[[1, 2], [3, 4]]⟩ : Array Nat).transpose.transpose = ⟨[[1, 2], [3, 4]]⟩ ∧
      (⟨[[1, 2], [3, 4]]⟩ : Array Nat).mirror_ver.mirror_ver = ⟨[[1, 2], [3, 4]]⟩) :=
  ⟨⟨fun cl hcl => by fin_cases hcl <;> rfl, Or.inr (by decide)⟩,
    c7_round_trips Move.left ⟨[[1, 2], [3, 4]]⟩ 2
      (fun cl hcl => by fin_cases hcl <;> rfl) (Or.inr (by decide))⟩

/-! ### Alpha-beta / minimax score equivalence (for C1) -/

theorem ite_lt_eq_max {β : Type} [LinearOrder β] (x y : β) :
    (if x < y then y else x) = max x y := by
  by_cases h : x < y
  · simp [h, max_eq_right h.le]
  · simp [h, max_eq_left (not_lt.mp h)]

theorem ite_lt_eq_min {β : Type} [LinearOrder β] (x y : β) :
    (if y < x then y else x) = min x y := by
  by_cases h : y < x
  · simp [h, min_eq_right h.le]
  · simp [h, min_eq_left (not_lt.mp h)]

theorem foldl_max_eq {β : Type} [LinearOrder β] [OrderBot β] :
    ∀ (l : List β) (b : β), l.foldl max b = max b (l.foldl max ⊥) := by
  intro l
  induction l with
  | nil =>
    intro b
    simp
  | cons x xs ih =>
    intro b
    rw [List.foldl_cons, List.foldl_cons, ih (max b x), ih (max ⊥ x)]
    rw [max_eq_right (bot_le : (⊥ : β) ≤ x), max_assoc]

theorem foldl_min_eq {β : Type} [LinearOrder β] [OrderTop β] :
    ∀ (l : List β) (b : β), l.foldl min b = min b (l.foldl min ⊤) := by
  intro l
  induction l with
  | nil =>
    intro b
    simp
  | cons x xs ih =>
    intro b
    rw [List.foldl_cons, List.foldl_cons, ih (min b x), ih (min ⊤ x)]
    rw [min_eq_right (le_top : x ≤ (⊤ : β)), min_assoc]

theorem abMaxLoop_spec {V : Type} [LinearOrder V] (eval : Gamestate → V)
    (g : Gamestate) (d : Nat)
    (IH : ∀ (m : Move) (a b : E V), a < b →
      ABSpec (minimaxScore eval (g.successor 0 m) d false)
        ((alpha_beta eval (g.successor 0 m) d false a b).1) a b) :
    ∀ (ms : List Move) (best : E V) (bestA : Move) (alpha beta : E V),
      best ≤ alpha → alpha < beta →
      ABSpec
        ((ms.map (fun m => minimaxScore eval (g.successor 0 m) d false)).foldl max best)
        ((abMaxLoop eval g d ms best bestA alpha beta).1) alpha beta := by
  intro ms
  induction ms with
  | nil =>
    intro best bestA alpha beta hba hab
    rw [abMaxLoop]
    exact ⟨fun h => ⟨h, le_refl _⟩,
      fun h => absurd (h.trans hba) (not_le.mpr hab),
      fun h _ => absurd h (not_lt.mpr hba)⟩
  | cons m ms ihms =>
    intro best bestA alpha beta hba hab
    have spec1 := IH m alpha beta hab
    set v1 := minimaxScore eval (g.successor 0 m) d false with hv1def
    set r1 := (alpha_beta eval (g.successor 0 m) d false alpha beta).1 with hr1def
    set M := (ms.map (fun m => minimaxScore eval (g.successor 0 m) d false)).foldl max
      (⊥ : E V) with hMdef
    have hstep : abMaxLoop eval g d (m :: ms) best bestA alpha beta
        = (if beta ≤ max (max best r1) alpha
           then (max best r1, if best < r1 then m else bestA)
           else abMaxLoop eval g d ms (max best r1) (if best < r1 then m else bestA)
             (max (max best r1) alpha) beta) := by
      rw [abMaxLoop]
      rw [← hr1def, ite_lt_eq_max]
    rw [List.map_cons, List.foldl_cons]
    rcases le_or_lt v1 alpha with hv1a | hv1a
    · obtain ⟨hr1a, hv1r1⟩ := spec1.1 hv1a
      have hbest' : max best r1 ≤ alpha := max_le hba hr1a
      have halpha' : max (max best r1) alpha = alpha := max_eq_right hbest'
      have hcond : ¬beta ≤ max (max best r1) alpha := by
        rw [halpha']
        exact not_le.mpr hab
      rw [hstep, if_neg hcond, halpha']
      have hrec := ihms (max best r1) (if best < r1 then m else bestA) alpha beta hbest' hab
      rw [foldl_max_eq] at hrec ⊢
      obtain ⟨h1, h2, h3⟩ := hrec
      refine ⟨?_, ?_, ?_⟩
      · intro hw
        have hM : M ≤ alpha := le_trans (le_max_right _ _) hw
        have hw2 : max (max best r1) M ≤ alpha := max_le hbest' hM
        obtain ⟨hra, hwr⟩ := h1 hw2
        refine ⟨hra, le_trans ?_ hwr⟩
        exact max_le_max (max_le_max (le_refl best) hv1r1) (le_refl M)
      · intro hbw
        have hmb : max best v1 ≤ alpha := max_le hba hv1a
        have hbM : beta ≤ M := by
          rcases le_max_iff.mp hbw with h | h
          · exact absurd (h.trans hmb) (not_le.mpr hab)
          · exact h
        have hw2 : beta ≤ max (max best r1) M := le_trans hbM (le_max_right _ _)
        obtain ⟨hbr, hrw2⟩ := h2 hw2
        have hwM : max (max best v1) M = M := max_eq_right (hmb.trans (hab.le.trans hbM))
        have hw2M : max (max best r1) M = M := max_eq_right (hbest'.trans (hab.le.trans hbM))
        rw [hwM]
        rw [hw2M] at hrw2
        exact ⟨hbr, hrw2⟩
      · intro haw hwb
        have hmb : max best v1 ≤ alpha := max_le hba hv1a
        have haM : alpha < M := by
          rcases lt_max_iff.mp haw with h | h
          · exact absurd h (not_lt.mpr hmb)
          · exact h
        have hwM : max (max best v1) M = M := max_eq_right (hmb.trans haM.le)
        have hw2M : max (max best r1) M = M := max_eq_right (hbest'.trans haM.le)
        rw [hwM] at hwb ⊢
        have hr := h3 (by rw [hw2M]; exact haM) (by rw [hw2M]; exact hwb)
        rw [hw2M] at hr
        exact hr
    · rcases lt_or_le v1 beta with hv1b | hv1b
      · have hr1 : r1 = v1 := spec1.2.2 hv1a hv1b
        have hbest' : max best r1 = v1 := by
          rw [hr1]
          exact max_eq_right (hba.trans hv1a.le)
        have halpha' : max (max best r1) alpha = v1 := by
          rw [hbest']
          exact max_eq_left hv1a.le
        have hcond : ¬beta ≤ max (max best r1) alpha := by
          rw [halpha']
          exact not_le.mpr hv1b
        rw [hstep, if_neg hcond, halpha', hbest']
        have hrec := ihms v1 (if best < r1 then m else bestA) v1 beta (le_refl v1) hv1b
        rw [foldl_max_eq] at hrec ⊢
        obtain ⟨h1, h2, h3⟩ := hrec
        have hwEq : max (max best v1) M = max v1 M :=
          congrArg (fun z => max z M) (max_eq_right (hba.trans hv1a.le))
        rw [hwEq]
        refine ⟨?_, ?_, ?_⟩
        · intro hw
          exact absurd ((le_max_left v1 M).trans hw) (not_le.mpr hv1a)
        · intro hbw
          exact h2 hbw
        · intro haw hwb
          by_cases hM : max v1 M ≤ v1
          · have hwv : max v1 M = v1 := le_antisymm hM (le_max_left _ _)
            obtain ⟨hra, hwr⟩ := h1 (le_of_eq hwv)
            rw [hwv]
            exact le_antisymm hra ((le_max_left v1 M).trans hwr)
          · push_neg at hM
            exact h3 hM hwb
      · obtain ⟨hbr1, hr1v⟩ := spec1.2.1 hv1b
        have hbest' : max best r1 = r1 :=
          max_eq_right (hba.trans (hab.le.trans hbr1))
        have hcond : beta ≤ max (max best r1) alpha := by
          rw [hbest']
          exact hbr1.trans (le_max_left _ _)
        rw [hstep, if_pos hcond]
        rw [foldl_max_eq]
        have hv1w : v1 ≤ max (max best v1) M :=
          (le_max_right best v1).trans (le_max_left _ M)
        refine ⟨?_, ?_, ?_⟩
        · intro hw
          exact absurd (hv1b.trans (hv1w.trans hw)) (not_le.mpr hab)
        · intro _
          refine ⟨?_, ?_⟩
          · show beta ≤ max best r1
            rw [hbest']
            exact hbr1
          · show max best r1 ≤ _
            rw [hbest']
            exact hr1v.trans hv1w
        · intro _ hwb
          exact absurd (hv1b.trans hv1w) (not_le.mpr hwb)

theorem abMinLoop_spec {V : Type} [LinearOrder V] (eval : Gamestate → V)
    (g : Gamestate) (d : Nat)
    (IH : ∀ (m : Move) (a b : E V), a < b →
      ABSpec (minimaxScore eval (g.successor 1 m) d true)
        ((alpha_beta eval (g.successor 1 m) d true a b).1) a b) :
    ∀ (ms : List Move) (best : E V) (bestA : Move) (alpha beta : E V),
      beta ≤ best → alpha < beta →
      ABSpec
        ((ms.map (fun m => minimaxScore eval (g.successor 1 m) d true)).foldl min best)
        ((abMinLoop eval g d ms best bestA alpha beta).1) alpha beta := by
  intro ms
  induction ms with
  | nil =>
    intro best bestA alpha beta hbb hab
    rw [abMinLoop]
    exact ⟨fun h => absurd (hbb.trans h) (not_le.mpr hab),
      fun _ => ⟨hbb, le_refl _⟩,
      fun _ h => absurd h (not_lt.mpr hbb)⟩
  | cons m ms ihms =>
    intro best bestA alpha beta hbb hab
    have spec1 := IH m alpha beta hab
    set v1 := minimaxScore eval (g.successor 1 m) d true with hv1def
    set r1 := (alpha_beta eval (g.successor 1 m) d true alpha beta).1 with hr1def
    set M := (ms.map (fun m => minimaxScore eval (g.successor 1 m) d true)).foldl min
      (⊤ : E V) with hMdef
    have hstep : abMinLoop eval g d (m :: ms) best bestA alpha beta
        = (if min (min best r1) beta ≤ alpha
           then (min best r1, if r1 < best then m else bestA)
           else abMinLoop eval g d ms (min best r1) (if r1 < best then m else bestA)
             alpha (min (min best r1) beta)) := by
      rw [abMinLoop]
      rw [← hr1def, ite_lt_eq_min]
    rw [List.map_cons, List.foldl_cons]
    rcases le_or_lt beta v1 with hv1b | hv1b
    · obtain ⟨hbr1, hr1v⟩ := spec1.2.1 hv1b
      have hbest' : beta ≤ min best r1 := le_min hbb hbr1
      have hbeta' : min (min best r1) beta = beta := min_eq_right hbest'
      have hcond : ¬min (min best r1) beta ≤ alpha := by
        rw [hbeta']
        exact not_le.mpr hab
      rw [hstep, if_neg hcond, hbeta']
      have hrec := ihms (min best r1) (if r1 < best then m else bestA) alpha beta hbest' hab
      rw [foldl_min_eq] at hrec ⊢
      obtain ⟨h1, h2, h3⟩ := hrec
      refine ⟨?_, ?_, ?_⟩
      · intro hw
        have hmb : beta ≤ min best v1 := le_min hbb hv1b
        have hMa : M ≤ alpha := by
          rcases min_le_iff.mp hw with h | h
          · exact absurd (hmb.trans h) (not_le.mpr hab)
          · exact h
        have hw2 : min (min best r1) M ≤ alpha := (min_le_right _ _).trans hMa
        obtain ⟨hra, hwr2⟩ := h1 hw2
        have hwM : min (min best v1) M = M := min_eq_right (hMa.trans (hab.le.trans hmb))
        have hw2M : min (min best r1) M = M := min_eq_right (hMa.trans (hab.le.trans hbest'))
        rw [hwM]
        rw [hw2M] at hwr2
        exact ⟨hra, hwr2⟩
      · intro hbw
        have hM : beta ≤ M := hbw.trans (min_le_right _ _)
        have hw2 : beta ≤ min (min best r1) M := le_min hbest' hM
        obtain ⟨hbr, hrw⟩ := h2 hw2
        refine ⟨hbr, hrw.trans ?_⟩
        exact min_le_min (min_le_min (le_refl best) hr1v) (le_refl M)
      · intro haw hwb
        have hmb : beta ≤ min best v1 := le_min hbb hv1b
        have hMb : M < beta := by
          rcases min_lt_iff.mp hwb with h | h
          · exact absurd h (not_lt.mpr hmb)
          · exact h
        have hwM : min (min best v1) M = M := min_eq_right (hMb.le.trans hmb)
        have hw2M : min (min best r1) M = M := min_eq_right (hMb.le.trans hbest')
        rw [hwM] at haw ⊢
        have hr := h3 (by rw [hw2M]; exact haw) (by rw [hw2M]; exact hMb)
        rw [hw2M] at hr
        exact hr
    · rcases lt_or_le alpha v1 with hv1a | hv1a
      · have hr1 : r1 = v1 := spec1.2.2 hv1a hv1b
        have hbest' : min best r1 = v1 := by
          rw [hr1]
          exact min_eq_right (hv1b.le.trans hbb)
        have hbeta' : min (min best r1) beta = v1 := by
          rw [hbest']
          exact min_eq_left hv1b.le
        have hcond : ¬min (min best r1) beta ≤ alpha := by
          rw [hbeta']
          exact not_le.mpr hv1a
        rw [hstep, if_neg hcond, hbeta', hbest']
        have hrec := ihms v1 (if r1 < best then m else bestA) alpha v1 (le_refl v1) hv1a
        rw [foldl_min_eq] at hrec ⊢
        obtain ⟨h1, h2, h3⟩ := hrec
        have hwEq : min (min best v1) M = min v1 M :=
          congrArg (fun z => min z M) (min_eq_right (hv1b.le.trans hbb))
        rw [hwEq]
        refine ⟨?_, ?_, ?_⟩
        · intro hw
          exact h1 hw
        · intro hbw
          exact absurd (hbw.trans (min_le_left _ _)) (not_le.mpr hv1b)
        · intro haw hwb
          by_cases hM : v1 ≤ min v1 M
          · have hwv : min v1 M = v1 := le_antisymm (min_le_left _ _) hM
            obtain ⟨hbr, hrw⟩ := h2 hM
            rw [hwv]
            exact le_antisymm (hrw.trans (min_le_left v1 M)) hbr
          · push_neg at hM
            exact h3 haw hM
      · obtain ⟨hr1a, hv1r1⟩ := spec1.1 hv1a
        have hbest' : min best r1 = r1 :=
          min_eq_right ((hr1a.trans hab.le).trans hbb)
        have hcond : min (min best r1) beta ≤ alpha := by
          rw [hbest']
          exact (min_le_left r1 beta).trans hr1a
        rw [hstep, if_pos hcond]
        rw [foldl_min_eq]
        have hwv1 : min (min best v1) M ≤ v1 :=
          (min_le_left _ M).trans (min_le_right best v1)
        refine ⟨?_, ?_, ?_⟩
        · intro _
          refine ⟨?_, ?_⟩
          · show min best r1 ≤ alpha
            rw [hbest']
            exact hr1a
          · show _ ≤ min best r1
            rw [hbest']
            exact hwv1.trans hv1r1
        · intro hbw
          exact absurd (hbw.trans (hwv1.trans hv1a)) (not_le.mpr hab)
        · intro haw _
          exact absurd haw (not_lt.mpr (hwv1.trans hv1a))

theorem ab_spec {V : Type} [LinearOrder V] :
    ∀ (N : Nat) (eval : Gamestate → V) (g : Gamestate) (d : Nat) (maximizer : Bool)
      (alpha beta : E V),
      2 * d + (if maximizer then 1 else 0) ≤ N → alpha < beta →
      ABSpec (minimaxScore eval g d maximizer)
        ((alpha_beta eval g d maximizer alpha beta).1) alpha beta := by
  intro N
  induction N with
  | zero =>
    intro eval g d maximizer alpha beta hN hab
    have hd : d = 0 := by omega
    subst hd
    rw [minimaxScore, alpha_beta, dif_pos (Or.inl rfl), dif_pos (Or.inl rfl)]
    exact ⟨fun h => ⟨h, le_refl _⟩, fun h => ⟨h, le_refl _⟩, fun _ _ => rfl⟩
  | succ n ih =>
    intro eval g d maximizer alpha beta hN hab
    by_cases hterm : d = 0 ∨ g.loss ∨ g.win
    · rw [minimaxScore, alpha_beta, dif_pos hterm, dif_pos hterm]
      exact ⟨fun h => ⟨h, le_refl _⟩, fun h => ⟨h, le_refl _⟩, fun _ _ => rfl⟩
    · have hd0 : d ≠ 0 := fun h => hterm (Or.inl h)
      rw [minimaxScore, alpha_beta, dif_neg hterm, dif_neg hterm]
      cases maximizer with
      | true =>
        have hbit : 2 * d + 1 ≤ n + 1 := by simpa using hN
        exact abMaxLoop_spec eval g d
          (fun m a b hab2 =>
            ih eval (g.successor 0 m) d false a b (by simp; omega) hab2)
          (g.legal_moves_id 0) ⊥ .stop alpha beta bot_le hab
      | false =>
        have hbit : 2 * d ≤ n + 1 := by simpa using hN
        exact abMinLoop_spec eval g (d - 1)
          (fun m a b hab2 =>
            ih eval (g.successor 1 m) (d - 1) true a b (by simp; omega) hab2)
          (g.legal_moves_id 1) ⊤ .stop alpha beta le_top hab

/-- C1: for every gamestate `g`, depth `d` and deterministic evaluation
function `eval`, the score component returned by
`AlphabetaAgent.alpha_beta(g, d, True, -inf, +inf)` equals the score computed
by `MinimaxAgent.minimax(g, d, True)` (the chosen moves may differ, and only
the score component is compared). -/
theorem c1_alphabeta_minimax_score {V : Type} [LinearOrder V]
    (eval : Gamestate → V) (g : Gamestate) (d : Nat) :
    (alpha_beta eval g d true ⊥ ⊤).1 = minimaxScore eval g d true := by
  have hab : (⊥ : E V) < ⊤ := bot_lt_top
  obtain ⟨h1, h2, h3⟩ := ab_spec (2 * d + 1) eval g d true ⊥ ⊤ (by simp) hab
  rcases eq_bot_or_bot_lt (minimaxScore eval g d true) with hv | hv
  · obtain ⟨hr, _⟩ := h1 (le_of_eq hv)
    rw [hv]
    exact le_bot_iff.mp hr
  · rcases eq_top_or_lt_top (minimaxScore eval g d true) with hv2 | hv2
    · obtain ⟨hr, _⟩ := h2 (le_of_eq hv2.symm)
      rw [hv2]
      exact top_le_iff.mp hr
    · exact h3 hv hv2

/-! ### Frontier-discipline lemmas (for C5 and C3)

Each selection function removes one node of the queue (returning a
permutation split) and each insertion function adds exactly one node. -/

theorem selHead_perm (q : List Node) (n : Node) (rest : List Node)
    (h : selHead q = some (n, rest)) : q.Perm (n :: rest) := by
  cases q with
  | nil => simp [selHead] at h
  | cons a as =>
    rw [selHead, Option.some.injEq] at h
    cases h
    exact List.Perm.refl _

theorem selMinBy_eq_none (lt : Node → Node → Bool) :
    ∀ q : List Node, selMinBy lt q = none → q = [] := by
  intro q h
  cases q with
  | nil => rfl
  | cons a as =>
    rw [selMinBy] at h
    cases h2 : selMinBy lt as with
    | none =>
      rw [h2] at h
      exact absurd h (by simp)
    | some mr =>
      rw [h2] at h
      obtain ⟨m, r⟩ := mr
      dsimp only at h
      by_cases hlt : lt m a = true
      · rw [if_pos hlt] at h
        exact absurd h (by simp)
      · rw [if_neg hlt] at h
        exact absurd h (by simp)

theorem selMinBy_perm (lt : Node → Node → Bool) :
    ∀ (q : List Node) (n : Node) (rest : List Node),
      selMinBy lt q = some (n, rest) → q.Perm (n :: rest) := by
  intro q
  induction q with
  | nil =>
    intro n rest h
    simp [selMinBy] at h
  | cons a as ih =>
    intro n rest h
    rw [selMinBy] at h
    cases h2 : selMinBy lt as with
    | none =>
      rw [h2] at h
      have has : as = [] := selMinBy_eq_none lt as h2
      subst has
      rw [Option.some.injEq] at h
      cases h
      exact List.Perm.refl _
    | some mr =>
      obtain ⟨m, r⟩ := mr
      rw [h2] at h
      dsimp only at h
      have hperm := ih m r h2
      by_cases hlt : lt m a = true
      · rw [if_pos hlt, Option.some.injEq] at h
        injection h with hA hB
        subst hA
        subst hB
        exact (hperm.cons a).trans (List.Perm.swap m a r)
      · rw [if_neg hlt, Option.some.injEq] at h
        cases h
        exact List.Perm.refl _

theorem selMinPrio_eq_none (prio : Node → ℚ) :
    ∀ q : List Node, selMinPrio prio q = none → q = [] := by
  intro q h
  cases q with
  | nil => rfl
  | cons a as =>
    rw [selMinPrio] at h
    cases h2 : selMinPrio prio as with
    | none =>
      rw [h2] at h
      exact absurd h (by simp)
    | some mr =>
      rw [h2] at h
      obtain ⟨m, r⟩ := mr
      dsimp only at h
      by_cases hlt : prio m < prio a
      · rw [if_pos hlt] at h
        exact absurd h (by simp)
      · rw [if_neg hlt] at h
        exact absurd h (by simp)

theorem selMinPrio_perm (prio : Node → ℚ) :
    ∀ (q : List Node) (n : Node) (rest : List Node),
      selMinPrio prio q = some (n, rest) → q.Perm (n :: rest) := by
  intro q
  induction q with
  | nil =>
    intro n rest h
    simp [selMinPrio] at h
  | cons a as ih =>
    intro n rest h
    rw [selMinPrio] at h
    cases h2 : selMinPrio prio as with
    | none =>
      rw [h2] at h
      have has : as = [] := selMinPrio_eq_none prio as h2
      subst has
      rw [Option.some.injEq] at h
      cases h
      exact List.Perm.refl _
    | some mr =>
      obtain ⟨m, r⟩ := mr
      rw [h2] at h
      dsimp only at h
      have hperm := ih m r h2
      by_cases hlt : prio m < prio a
      · rw [if_pos hlt, Option.some.injEq] at h
        injection h with hA hB
        subst hA
        subst hB
        exact (hperm.cons a).trans (List.Perm.swap m a r)
      · rw [if_neg hlt, Option.some.injEq] at h
        cases h
        exact List.Perm.refl _

theorem insFront_perm (n : Node) (q : List Node) : (insFront n q).Perm (n :: q) :=
  List.Perm.refl _

theorem insBack_perm (n : Node) (q : List Node) : (insBack n q).Perm (n :: q) :=
  List.perm_append_singleton n q

theorem successors_length_le (rep : PositionSearchRepresentation) (v : Vector) :
    (rep.successors v).length ≤ 4 := by
  have h := List.length_filterMap_le
    (fun move =>
      let new_vector := v + move.vector
      if rep.walls.truthy new_vector then none
      else some (new_vector, [move], rep.cost_fn new_vector))
    Move.no_stop
  exact h.trans (by rw [show Move.no_stop.length = 4 from rfl])

/-- Pushing the unexplored successors onto the frontier adds at most one node
per successor and keeps every frontier state inside any set `S` containing
all the successor states. -/
theorem searchAux_push_bound
    (ins : Node → List Node → List Node)
    (hins : ∀ (n : Node) (q : List Node), (ins n q).Perm (n :: q))
    (S : List Vector) (explored : List Vector) (path : List Move) (cost : ℚ) :
    ∀ (succs : List (Vector × List Move × ℚ)) (q : List Node),
      (∀ n ∈ q, n.1 ∈ S) → (∀ s ∈ succs, s.1 ∈ S) →
      (∀ n ∈ succs.foldl
          (fun q s => if s.1 ∈ explored then q
            else ins (s.1, path ++ s.2.1, cost + s.2.2) q) q, n.1 ∈ S) ∧
      (succs.foldl
          (fun q s => if s.1 ∈ explored then q
            else ins (s.1, path ++ s.2.1, cost + s.2.2) q) q).length
        ≤ q.length + succs.length := by
  intro succs
  induction succs with
  | nil =>
    intro q hq _
    exact ⟨hq, by simp⟩
  | cons s ss ihs =>
    intro q hq hss
    rw [List.foldl_cons]
    by_cases hmem : s.1 ∈ explored
    · rw [if_pos hmem]
      obtain ⟨h1, h2⟩ := ihs q hq (fun t ht => hss t (List.mem_cons_of_mem _ ht))
      refine ⟨h1, h2.trans ?_⟩
      simp
    · rw [if_neg hmem]
      have hperm := hins (s.1, path ++ s.2.1, cost + s.2.2) q
      have hq2 : ∀ n ∈ ins (s.1, path ++ s.2.1, cost + s.2.2) q, n.1 ∈ S := by
        intro n hn
        rcases List.mem_cons.mp (hperm.subset hn) with hn1 | hn2
        · rw [hn1]
          exact hss s (List.mem_cons_self _ _)
        · exact hq n hn2
      have hlen2 : (ins (s.1, path ++ s.2.1, cost + s.2.2) q).length = q.length + 1 := by
        have := hperm.length_eq
        simpa using this
      obtain ⟨h1, h2⟩ := ihs _ hq2 (fun t ht => hss t (List.mem_cons_of_mem _ ht))
      refine ⟨h1, h2.trans ?_⟩
      rw [hlen2]
      simp [Nat.add_comm, Nat.add_assoc, Nat.add_left_comm]

/-- The central emptiness theorem: if `S` contains every frontier state, is
closed under successor expansion, and the goal test fails throughout `S`,
then with fuel exceeding the potential `|frontier| + 5·|S \ explored|` the
shared search loop drains the frontier and returns `nopath`. -/
theorem searchAux_nopath (rep : PositionSearchRepresentation)
    (sel : List Node → Option (Node × List Node))
    (ins : Node → List Node → List Node)
    (hsel : ∀ (q : List Node) (n : Node) (rest : List Node),
      sel q = some (n, rest) → q.Perm (n :: rest))
    (hins : ∀ (n : Node) (q : List Node), (ins n q).Perm (n :: q))
    (S : List Vector)
    (hclosed : ∀ v ∈ S, ∀ s ∈ rep.successors v, s.1 ∈ S)
    (hgoal : ∀ v ∈ S, rep.is_goal v = false) :
    ∀ (fuel : Nat) (frontier : List Node) (explored : List Vector),
      (∀ n ∈ frontier, n.1 ∈ S) →
      frontier.length
          + 5 * (S.filter (fun v => decide (v ∉ explored))).length < fuel →
      searchAux rep sel ins fuel frontier explored = .nopath := by
  intro fuel
  induction fuel with
  | zero =>
    intro frontier explored _ hfuel
    omega
  | succ f ih =>
    intro frontier explored hfr hfuel
    rw [searchAux]
    cases hselq : sel frontier with
    | none => rfl
    | some nr =>
      obtain ⟨⟨state, path, cost⟩, rest⟩ := nr
      have hperm := hsel frontier _ _ hselq
      have hlen : frontier.length = rest.length + 1 := by
        have := hperm.length_eq
        simpa using this
      have hstateS : state ∈ S :=
        hfr _ (hperm.symm.subset (List.mem_cons_self _ _))
      have hrestS : ∀ n ∈ rest, n.1 ∈ S :=
        fun n hn => hfr n (hperm.symm.subset (List.mem_cons_of_mem _ hn))
      dsimp only
      by_cases hexp : state ∈ explored
      · rw [if_pos hexp]
        apply ih rest explored hrestS
        omega
      · rw [if_neg hexp]
        have hg : ¬(rep.is_goal state = true) := by
          rw [hgoal state hstateS]
          exact Bool.false_ne_true
        rw [if_neg hg]
        obtain ⟨hS2, hlen2⟩ := searchAux_push_bound ins hins S (state :: explored)
          path cost (rep.successors state) rest hrestS (hclosed state hstateS)
        apply ih _ (state :: explored) hS2
        have hsucc4 : (rep.successors state).length ≤ 4 :=
          successors_length_le rep state
        have hfilt : (S.filter (fun v => decide (v ∉ state :: explored))).length
            < (S.filter (fun v => decide (v ∉ explored))).length := by
          have hsubl : List.Sublist (S.filter (fun v => decide (v ∉ state :: explored)))
              (S.filter (fun v => decide (v ∉ explored))) := by
            apply List.monotone_filter_right
            intro a ha
            simp only [decide_eq_true_eq, List.mem_cons, not_or] at ha ⊢
            exact ha.2
          have hmem1 : state ∈ S.filter (fun v => decide (v ∉ explored)) := by
            rw [List.mem_filter]
            exact ⟨hstateS, by simpa using hexp⟩
          have hmem2 : state ∉ S.filter (fun v => decide (v ∉ state :: explored)) := by
            rw [List.mem_filter]
            simp
          refine Nat.lt_of_le_of_ne hsubl.length_le (fun he => ?_)
          rw [hsubl.eq_of_length he] at hmem2
          exact hmem2 hmem1
        omega

/-- Dropping `stop` moves from a wall-free walk keeps it wall-free and keeps
its endpoint (`stop`'s delta is the zero vector). -/
theorem walkFree_filter_stop (walls : Array Bool) :
    ∀ (p : List Move) (v : Vector), walkFree walls v p = true →
      walkFree walls v (p.filter (fun m => decide (m ≠ Move.stop))) = true ∧
      walkEnd v (p.filter (fun m => decide (m ≠ Move.stop))) = walkEnd v p := by
  intro p
  induction p with
  | nil =>
    intro v _
    exact ⟨rfl, rfl⟩
  | cons m rest ih =>
    intro v h
    rw [walkFree, Bool.and_eq_true, Bool.not_eq_true'] at h
    obtain ⟨hwall, hrest⟩ := h
    by_cases hm : m = Move.stop
    · subst hm
      have hv : v + Move.stop.vector = v := Vector.add_zero_vector v
      rw [hv] at hrest
      obtain ⟨ihf, ihe⟩ := ih v hrest
      have hfilt : (Move.stop :: rest).filter (fun m => decide (m ≠ Move.stop))
          = rest.filter (fun m => decide (m ≠ Move.stop)) := by
        simp [List.filter_cons]
      rw [hfilt]
      refine ⟨ihf, ?_⟩
      rw [ihe]
      show walkEnd v rest = walkEnd (v + Move.stop.vector) rest
      rw [hv]
    · have hfilt : (m :: rest).filter (fun m => decide (m ≠ Move.stop))
          = m :: rest.filter (fun m => decide (m ≠ Move.stop)) := by
        simp [List.filter_cons, hm]
      rw [hfilt]
      obtain ⟨ihf, ihe⟩ := ih (v + m.vector) hrest
      constructor
      · rw [walkFree, Bool.and_eq_true, Bool.not_eq_true']
        exact ⟨hwall, ihf⟩
      · show walkEnd (v + m.vector) (rest.filter (fun m => decide (m ≠ Move.stop)))
            = walkEnd (v + m.vector) rest
        exact ihe

/-- A wall-free walk of non-`stop` moves stays inside any set of states
closed under `PositionSearchRepresentation.successors`. -/
theorem walkEnd_mem_closed (rep : PositionSearchRepresentation) (S : List Vector)
    (hclosed : ∀ v ∈ S, ∀ s ∈ rep.successors v, s.1 ∈ S) :
    ∀ (p : List Move) (v : Vector), v ∈ S →
      p.all (fun m => decide (m ≠ Move.stop)) = true →
      walkFree rep.walls v p = true → walkEnd v p ∈ S := by
  intro p
  induction p with
  | nil =>
    intro v hv _ _
    exact hv
  | cons m rest ih =>
    intro v hv hall hfree
    rw [List.all_cons, Bool.and_eq_true, decide_eq_true_eq] at hall
    obtain ⟨hm, hall2⟩ := hall
    rw [walkFree, Bool.and_eq_true, Bool.not_eq_true'] at hfree
    obtain ⟨hwall, hfree2⟩ := hfree
    have hsucc : (v + m.vector, [m], rep.cost_fn (v + m.vector)) ∈ rep.successors v := by
      rw [PositionSearchRepresentation.successors]
      apply List.mem_filterMap.mpr
      refine ⟨m, ?_, ?_⟩
      · rw [Move.no_stop, List.mem_filter]
        exact ⟨by cases m <;> simp [Move.enumList], by simpa using hm⟩
      · dsimp only
        rw [if_neg (by rw [hwall]; exact Bool.false_ne_true)]
    have hv2 : v + m.vector ∈ S := hclosed v hv _ hsucc
    exact ih (v + m.vector) hv2 hall2 hfree2

/-- **C5.** For every search representation whose reachable region is
exhausted by a finite set `S` of states containing the start, closed under
successor expansion, and on which the goal test never succeeds (so the goal
is unreachable and the frontier empties), each of the four algorithms —
`depthfirst`, `breadthfirst`, `uniformcost` and `astar` — terminates within
an explicit fuel bound and returns the absent result (`None`, embedded as
`SearchResult.nopath`) rather than raising an exception. -/
theorem c5_unreachable_no_path (rep : PositionSearchRepresentation)
    (heuristic : Vector → PositionSearchRepresentation → ℚ)
    (S : List Vector)
    (hstart : rep.start ∈ S)
    (hclosed : ∀ v ∈ S, ∀ s ∈ rep.successors v, s.1 ∈ S)
    (hgoal : ∀ v ∈ S, rep.is_goal v = false)
    (fuel : Nat) (hfuel : 5 * S.length + 1 < fuel) :
    ¬ReachableFrom rep.walls rep.start rep.goal ∧
    depthfirst rep fuel = .nopath ∧
    breadthfirst rep fuel = .nopath ∧
    uniformcost rep fuel = .nopath ∧
    astar rep heuristic fuel = .nopath := by
  have hinit : ∀ n ∈ ([(rep.start, ([] : List Move), (0 : ℚ))] : List Node),
      n.1 ∈ S := by
    intro n hn
    rw [List.mem_singleton] at hn
    rw [hn]
    exact hstart
  have hfT : ([(rep.start, ([] : List Move), (0 : ℚ))] : List Node).length
      + 5 * (S.filter (fun v => decide (v ∉ ([] : List Vector)))).length < fuel := by
    have hflt : S.filter (fun v => decide (v ∉ ([] : List Vector))) = S := by
      apply List.filter_eq_self.mpr
      intro a _
      simp
    rw [hflt]
    simp only [List.length_singleton]
    omega
  refine ⟨?_, ?_, ?_, ?_, ?_⟩
  · rintro ⟨p, hp⟩
    rw [FreeWalk, Bool.and_eq_true] at hp
    obtain ⟨hfree, hend⟩ := hp
    have hend2 : walkEnd rep.start p = rep.goal := of_decide_eq_true hend
    obtain ⟨hfree2, hend3⟩ := walkFree_filter_stop rep.walls p rep.start hfree
    have hall : (p.filter (fun m => decide (m ≠ Move.stop))).all
        (fun m => decide (m ≠ Move.stop)) = true :=
      List.all_eq_true.mpr (fun m hm => (List.mem_filter.mp hm).2)
    have hgoalS : rep.goal ∈ S := by
      have hmem := walkEnd_mem_closed rep S hclosed
        (p.filter (fun m => decide (m ≠ Move.stop))) rep.start hstart hall hfree2
      rw [hend3, hend2] at hmem
      exact hmem
    have hgf := hgoal rep.goal hgoalS
    rw [PositionSearchRepresentation.is_goal] at hgf
    simp at hgf
  · exact searchAux_nopath rep selHead insFront selHead_perm insFront_perm S
      hclosed hgoal fuel _ [] hinit hfT
  · exact searchAux_nopath rep selHead insBack selHead_perm insBack_perm S
      hclosed hgoal fuel _ [] hinit hfT
  · exact searchAux_nopath rep (selMinBy nodeLt) insBack (selMinBy_perm nodeLt)
      insBack_perm S hclosed hgoal fuel _ [] hinit hfT
  · exact searchAux_nopath rep (selMinPrio (fun n => heuristic n.1 rep + n.2.2))
      insBack (selMinPrio_perm _) insBack_perm S hclosed hgoal fuel _ [] hinit hfT

theorem c5_unreachable_no_path_witness :
    (repClosed.start ∈ [(⟨1, 1⟩ : Vector)] ∧
      (∀ v ∈ [(⟨1, 1⟩ : Vector)], ∀ s ∈ repClosed.successors v,
        s.1 ∈ [(⟨1, 1⟩ : Vector)]) ∧
      (∀ v ∈ [(⟨1, 1⟩ : Vector)], repClosed.is_goal v = false) ∧
      5 * [(⟨1, 1⟩ : Vector)].length + 1 < 7) ∧
    (¬ReachableFrom repClosed.walls repClosed.start repClosed.goal ∧
      depthfirst repClosed 7 = .nopath ∧
      breadthfirst repClosed 7 = .nopath ∧
      uniformcost repClosed 7 = .nopath ∧
      astar repClosed nullHeuristic 7 = .nopath) :=
  ⟨⟨by decide, by decide, by decide, by decide⟩,
    c5_unreachable_no_path repClosed nullHeuristic [⟨1, 1⟩] (by decide) (by decide)
      (by decide) 7 (by decide)⟩

/-! ### Walks and graph distance (for C3) -/

theorem walkEnd_append (v : Vector) (p q : List Move) :
    walkEnd v (p ++ q) = walkEnd (walkEnd v p) q := by
  simp [walkEnd]

theorem walkFree_append (walls : Array Bool) :
    ∀ (p : List Move) (q : List Move) (v : Vector),
      walkFree walls v (p ++ q)
        = (walkFree walls v p && walkFree walls (walkEnd v p) q) := by
  intro p
  induction p with
  | nil =>
    intro q v
    simp [walkFree, walkEnd]
  | cons m rest ih =>
    intro q v
    rw [List.cons_append, walkFree, walkFree, ih q (v + m.vector), Bool.and_assoc]
    rfl

theorem GWalk_nil (walls : Array Bool) (v : Vector) : GWalk walls v [] v = true := by
  simp [GWalk, FreeWalk, walkFree, walkEnd]

theorem GWalk_append_edge (walls : Array Bool) (s v : Vector) (p : List Move)
    (m : Move) (hw : GWalk walls s p v = true) (hm : m ≠ Move.stop)
    (hwall : walls.truthy (v + m.vector) = false) :
    GWalk walls s (p ++ [m]) (v + m.vector) = true := by
  rw [GWalk, Bool.and_eq_true] at hw
  obtain ⟨hall, hfw⟩ := hw
  rw [FreeWalk, Bool.and_eq_true] at hfw
  obtain ⟨hfree, hend⟩ := hfw
  have hend2 : walkEnd s p = v := of_decide_eq_true hend
  rw [GWalk, Bool.and_eq_true]
  refine ⟨?_, ?_⟩
  · rw [List.all_append, hall]
    simp [hm]
  · rw [FreeWalk, Bool.and_eq_true]
    refine ⟨?_, ?_⟩
    · rw [walkFree_append, Bool.and_eq_true]
      refine ⟨hfree, ?_⟩
      rw [hend2]
      show (!walls.truthy (v + m.vector) && walkFree walls (v + m.vector) []) = true
      rw [hwall]
      rfl
    · rw [walkEnd_append, hend2]
      show decide (walkEnd v [m] = v + m.vector) = true
      simp [walkEnd]

theorem GWalk_concat_elim (walls : Array Bool) (s x : Vector) (p : List Move)
    (m : Move) (hw : GWalk walls s (p ++ [m]) x = true) :
    GWalk walls s p (walkEnd s p) = true ∧ m ≠ Move.stop ∧
    walls.truthy x = false ∧ x = walkEnd s p + m.vector := by
  rw [GWalk, Bool.and_eq_true] at hw
  obtain ⟨hall, hfw⟩ := hw
  rw [FreeWalk, Bool.and_eq_true] at hfw
  obtain ⟨hfree, hend⟩ := hfw
  have hend2 : walkEnd s (p ++ [m]) = x := of_decide_eq_true hend
  rw [walkEnd_append] at hend2
  have hend3 : walkEnd s p + m.vector = x := by
    rw [← hend2]
    simp [walkEnd]
  rw [List.all_append] at hall
  rw [Bool.and_eq_true] at hall
  obtain ⟨hallp, hallm⟩ := hall
  have hm : m ≠ Move.stop := by
    have := List.all_eq_true.mp hallm m (List.mem_singleton_self m)
    simpa using this
  rw [walkFree_append, Bool.and_eq_true] at hfree
  obtain ⟨hfreep, hfreem⟩ := hfree
  have hwx : walls.truthy (walkEnd s p + m.vector) = false := by
    rw [show ([m] : List Move) = m :: [] from rfl, walkFree, Bool.and_eq_true,
      Bool.not_eq_true'] at hfreem
    exact hfreem.1
  refine ⟨?_, hm, ?_, hend3.symm⟩
  · rw [GWalk, Bool.and_eq_true]
    refine ⟨hallp, ?_⟩
    rw [FreeWalk, Bool.and_eq_true]
    exact ⟨hfreep, by simp⟩
  · rw [← hend3]
    exact hwx

theorem distIs_exists (walls : Array Bool) (s x : Vector) (p : List Move)
    (hp : GWalk walls s p x = true) :
    ∃ k, distIs walls s x k ∧ k ≤ p.length := by
  have hne : {n : ℕ | ∃ q, GWalk walls s q x = true ∧ q.length = n}.Nonempty :=
    ⟨p.length, p, hp, rfl⟩
  refine ⟨sInf {n : ℕ | ∃ q, GWalk walls s q x = true ∧ q.length = n}, ⟨?_, ?_⟩, ?_⟩
  · exact Nat.sInf_mem hne
  · intro q hq
    exact Nat.sInf_le ⟨q, hq, rfl⟩
  · exact Nat.sInf_le ⟨p, hp, rfl⟩

theorem distIs_unique (walls : Array Bool) (s x : Vector) (k k2 : Nat)
    (h1 : distIs walls s x k) (h2 : distIs walls s x k2) : k = k2 := by
  obtain ⟨⟨p1, hp1, hl1⟩, hlb1⟩ := h1
  obtain ⟨⟨p2, hp2, hl2⟩, hlb2⟩ := h2
  exact le_antisymm (hl2 ▸ hlb1 p2 hp2) (hl1 ▸ hlb2 p1 hp1)

theorem distIs_self (walls : Array Bool) (s : Vector) : distIs walls s s 0 :=
  ⟨⟨[], GWalk_nil walls s, rfl⟩, fun _ _ => Nat.zero_le _⟩

theorem distIs_zero_eq (walls : Array Bool) (s x : Vector)
    (h : distIs walls s x 0) : x = s := by
  obtain ⟨⟨p, hp, hl⟩, _⟩ := h
  rw [List.length_eq_zero] at hl
  subst hl
  rw [GWalk, Bool.and_eq_true] at hp
  obtain ⟨_, hfw⟩ := hp
  rw [FreeWalk, Bool.and_eq_true] at hfw
  exact (of_decide_eq_true hfw.2).symm

theorem distIs_succ_pred (walls : Array Bool) (s x : Vector) (k : Nat)
    (h : distIs walls s x (k + 1)) :
    ∃ y, distIs walls s y k ∧ Edge walls y x := by
  obtain ⟨⟨p, hp, hl⟩, hlb⟩ := h
  rcases List.eq_nil_or_concat p with hnil | ⟨p2, m, hcat⟩
  · rw [hnil] at hl
    simp at hl
  · subst hcat
    rw [List.concat_eq_append] at hp hl
    obtain ⟨hwp2, hm, hwx, hx⟩ := GWalk_concat_elim walls s x p2 m hp
    have hl2 : p2.length = k := by
      rw [List.length_append] at hl
      simpa using hl
    obtain ⟨j, hdj, hjle⟩ := distIs_exists walls s (walkEnd s p2) p2 hwp2
    rw [hl2] at hjle
    have hjk : j = k := by
      rcases lt_or_eq_of_le hjle with hlt | heq
      · exfalso
        obtain ⟨⟨qy, hqy, hqyl⟩, _⟩ := hdj
        have hext := GWalk_append_edge walls s (walkEnd s p2) qy m hqy hm
          (by rw [hx] at hwx; exact hwx)
        rw [← hx] at hext
        have := hlb (qy ++ [m]) hext
        rw [List.length_append, hqyl] at this
        simp at this
        omega
      · exact heq
    refine ⟨walkEnd s p2, hjk ▸ hdj, ⟨m, hm, hx, ?_⟩⟩
    exact hwx

theorem distIs_all_levels (walls : Array Bool) (s : Vector) :
    ∀ (K : Nat) (x : Vector), distIs walls s x K →
      ∀ j, j ≤ K → ∃ y, distIs walls s y j := by
  intro K
  induction K with
  | zero =>
    intro x hx j hj
    rw [Nat.le_zero] at hj
    subst hj
    exact ⟨x, hx⟩
  | succ K ih =>
    intro x hx j hj
    rcases Nat.lt_or_ge j (K + 1) with hlt | hge
    · obtain ⟨y, hy, _⟩ := distIs_succ_pred walls s x K hx
      exact ih y hy j (by omega)
    · exact ⟨x, (by omega : j = K + 1) ▸ hx⟩

theorem distIs_edge_le (walls : Array Bool) (s y x : Vector) (j kx : Nat)
    (hdy : distIs walls s y j) (he : Edge walls y x)
    (hdx : distIs walls s x kx) : kx ≤ j + 1 := by
  obtain ⟨⟨p, hp, hl⟩, _⟩ := hdy
  obtain ⟨m, hm, hxe, hwx⟩ := he
  have hext := GWalk_append_edge walls s y p m hp hm (by rw [← hxe]; exact hwx)
  rw [← hxe] at hext
  have := hdx.2 (p ++ [m]) hext
  rw [List.length_append, hl] at this
  simpa using this

theorem mem_successors_elim (rep : PositionSearchRepresentation) (v : Vector)
    (s : Vector × List Move × ℚ) (hs : s ∈ rep.successors v) :
    ∃ m : Move, m ≠ Move.stop ∧ rep.walls.truthy (v + m.vector) = false ∧
      s = (v + m.vector, [m], rep.cost_fn (v + m.vector)) := by
  rw [PositionSearchRepresentation.successors] at hs
  obtain ⟨m, hm, he⟩ := List.mem_filterMap.mp hs
  dsimp only at he
  by_cases hw : rep.walls.truthy (v + m.vector) = true
  · rw [if_pos hw] at he
    exact absurd he (by simp)
  · rw [if_neg hw] at he
    rw [Option.some.injEq] at he
    refine ⟨m, ?_, by simpa using hw, he.symm⟩
    rw [Move.no_stop, List.mem_filter] at hm
    simpa using hm.2

theorem mem_successors_intro (rep : PositionSearchRepresentation) (v : Vector)
    (m : Move) (hm : m ≠ Move.stop)
    (hw : rep.walls.truthy (v + m.vector) = false) :
    (v + m.vector, [m], rep.cost_fn (v + m.vector)) ∈ rep.successors v := by
  rw [PositionSearchRepresentation.successors]
  apply List.mem_filterMap.mpr
  refine ⟨m, ?_, ?_⟩
  · rw [Move.no_stop, List.mem_filter]
    exact ⟨by cases m <;> simp [Move.enumList], by simpa using hm⟩
  · dsimp only
    rw [if_neg (by rw [hw]; exact Bool.false_ne_true)]

/-- With FIFO insertion the successor push appends exactly the unexplored
successors, in order, at the back of the queue. -/
theorem bfs_push_eq (E2 : List Vector) (path : List Move) (cost : ℚ) :
    ∀ (succs : List (Vector × List Move × ℚ)) (q : List Node),
      succs.foldl (fun q s => if s.1 ∈ E2 then q
          else insBack (s.1, path ++ s.2.1, cost + s.2.2) q) q
        = q ++ (succs.filter (fun s => decide (s.1 ∉ E2))).map
            (fun s => (s.1, path ++ s.2.1, cost + s.2.2)) := by
  intro succs
  induction succs with
  | nil =>
    intro q
    simp
  | cons s ss ihs =>
    intro q
    rw [List.foldl_cons, List.filter_cons]
    by_cases hmem : s.1 ∈ E2
    · rw [if_pos hmem, if_neg (by simpa using hmem)]
      exact ihs q
    · rw [if_neg hmem, if_pos (by simpa using hmem)]
      rw [ihs (insBack (s.1, path ++ s.2.1, cost + s.2.2) q)]
      rw [insBack, List.map_cons, List.append_assoc]
      rfl

/-- Level shift: when the level-`L` part of the queue is exhausted, the
invariant holds at level `L + 1` with the old level-`L+1` part in front. -/
theorem bfsInv_shift (rep : PositionSearchRepresentation) (L : Nat)
    (qb : List Node) (E : List Vector) (h : BFSInvAt rep L [] qb E) :
    BFSInvAt rep (L + 1) qb [] E := by
  obtain ⟨sound, lenA, lenB, below, expl, covL, covL1, goalE⟩ := h
  refine ⟨?_, lenB, ?_, ?_, ?_, ?_, ?_, goalE⟩
  · intro n hn
    exact sound n (by simpa using hn)
  · intro n hn
    simp at hn
  · intro x k hk hlt
    rcases Nat.lt_or_ge k L with h2 | h2
    · exact below x k hk h2
    · have hkL : k = L := by omega
      subst hkL
      by_contra hxE
      obtain ⟨n, hn, _⟩ := covL x hk hxE
      simp at hn
  · intro x hx
    obtain ⟨k, hk, hkle⟩ := expl x hx
    exact ⟨k, hk, by omega⟩
  · intro x hx hxE
    rcases covL1 x hx hxE with ⟨n, hn, he⟩ | ⟨y, hy, hyE, _⟩
    · exact ⟨n, hn, he⟩
    · obtain ⟨n, hn, _⟩ := covL y hy hyE
      simp at hn
  · intro x hx hxE
    right
    obtain ⟨y, hy, hedge⟩ := distIs_succ_pred rep.walls rep.start x (L + 1) hx
    refine ⟨y, hy, ?_, hedge⟩
    intro hyE
    obtain ⟨k, hk, hkle⟩ := expl y hyE
    have := distIs_unique rep.walls rep.start y _ _ hy hk
    omega

/-- Discarding an already-explored head node preserves the invariant. -/
theorem bfsInv_discard (rep : PositionSearchRepresentation) (L : Nat)
    (n0 : Node) (qa2 qb : List Node) (E : List Vector)
    (h : BFSInvAt rep L (n0 :: qa2) qb E) (hE : n0.1 ∈ E) :
    BFSInvAt rep L qa2 qb E := by
  obtain ⟨sound, lenA, lenB, below, expl, covL, covL1, goalE⟩ := h
  refine ⟨?_, ?_, lenB, below, expl, ?_, covL1, goalE⟩
  · intro n hn
    apply sound n
    rw [List.cons_append]
    exact List.mem_cons_of_mem _ hn
  · intro n hn
    exact lenA n (List.mem_cons_of_mem _ hn)
  · intro x hx hxE
    obtain ⟨n, hn, hne⟩ := covL x hx hxE
    rcases List.mem_cons.mp hn with h1 | h1
    · exact absurd (hne ▸ h1 ▸ hE) hxE
    · exact ⟨n, h1, hne⟩

/-- Expanding an unexplored non-goal head node at level `L` preserves the
invariant: its state becomes explored and its unexplored successors are
appended at level `L + 1`. -/
theorem bfsInv_expand (rep : PositionSearchRepresentation) (L : Nat)
    (n0 : Node) (qa2 qb : List Node) (E : List Vector)
    (h : BFSInvAt rep L (n0 :: qa2) qb E) (hE : n0.1 ∉ E)
    (hgoalv : rep.is_goal n0.1 = false) :
    BFSInvAt rep L qa2
      (qb ++ ((rep.successors n0.1).filter
          (fun s => decide (s.1 ∉ n0.1 :: E))).map
        (fun s => (s.1, n0.2.1 ++ s.2.1, n0.2.2 + s.2.2)))
      (n0.1 :: E) := by
  obtain ⟨sound, lenA, lenB, below, expl, covL, covL1, goalE⟩ := h
  have hmem0 : n0 ∈ (n0 :: qa2) ++ qb := by
    rw [List.cons_append]
    exact List.mem_cons_self _ _
  have hwalk0 : GWalk rep.walls rep.start n0.2.1 n0.1 = true := sound n0 hmem0
  have hlen0 : n0.2.1.length = L := lenA n0 (List.mem_cons_self _ _)
  have hdv : distIs rep.walls rep.start n0.1 L := by
    obtain ⟨k, hk, hkle⟩ := distIs_exists rep.walls rep.start n0.1 n0.2.1 hwalk0
    rw [hlen0] at hkle
    rcases Nat.lt_or_ge k L with hlt | hge
    · exact absurd (below n0.1 k hk hlt) hE
    · have : k = L := by omega
      exact this ▸ hk
  have hnews : ∀ n ∈ ((rep.successors n0.1).filter
      (fun s => decide (s.1 ∉ n0.1 :: E))).map
        (fun s => (s.1, n0.2.1 ++ s.2.1, n0.2.2 + s.2.2)),
      ∃ m : Move, m ≠ Move.stop ∧
        rep.walls.truthy (n0.1 + m.vector) = false ∧
        n0.1 + m.vector ∉ n0.1 :: E ∧
        n = (n0.1 + m.vector, n0.2.1 ++ [m], n0.2.2 + rep.cost_fn (n0.1 + m.vector)) := by
    intro n hn
    obtain ⟨s, hs, hns⟩ := List.mem_map.mp hn
    rw [List.mem_filter] at hs
    obtain ⟨hs1, hs2⟩ := hs
    obtain ⟨m, hm, hwm, hsm⟩ := mem_successors_elim rep n0.1 s hs1
    refine ⟨m, hm, hwm, ?_, ?_⟩
    · rw [hsm] at hs2
      simpa using hs2
    · rw [hsm] at hns
      exact hns.symm
  refine ⟨?_, ?_, ?_, ?_, ?_, ?_, ?_, ?_⟩
  · intro n hn
    rw [List.mem_append] at hn
    rcases hn with hn | hn
    · apply sound n
      rw [List.cons_append, List.mem_cons]
      right
      rw [List.mem_append]
      exact Or.inl hn
    · rw [List.mem_append] at hn
      rcases hn with hn | hn
      · apply sound n
        rw [List.cons_append, List.mem_cons]
        right
        rw [List.mem_append]
        exact Or.inr hn
      · obtain ⟨m, hm, hwm, _, hneq⟩ := hnews n hn
        rw [hneq]
        exact GWalk_append_edge rep.walls rep.start n0.1 n0.2.1 m hwalk0 hm hwm
  · intro n hn
    exact lenA n (List.mem_cons_of_mem _ hn)
  · intro n hn
    rw [List.mem_append] at hn
    rcases hn with hn | hn
    · exact lenB n hn
    · obtain ⟨m, _, _, _, hneq⟩ := hnews n hn
      rw [hneq]
      simp [hlen0]
  · intro x k hk hlt
    exact List.mem_cons_of_mem _ (below x k hk hlt)
  · intro x hx
    rcases List.mem_cons.mp hx with h1 | h1
    · exact ⟨L, h1 ▸ hdv, le_refl L⟩
    · exact expl x h1
  · intro x hx hxE
    have hxE2 : x ∉ E := fun hc => hxE (List.mem_cons_of_mem _ hc)
    have hxv : x ≠ n0.1 := fun hc => hxE (hc ▸ List.mem_cons_self _ _)
    obtain ⟨n, hn, hne⟩ := covL x hx hxE2
    rcases List.mem_cons.mp hn with h1 | h1
    · exact absurd (h1 ▸ hne).symm hxv
    · exact ⟨n, h1, hne⟩
  · intro x hx hxE
    have hxE2 : x ∉ E := fun hc => hxE (List.mem_cons_of_mem _ hc)
    rcases covL1 x hx hxE2 with ⟨n, hn, hne⟩ | ⟨y, hdy, hyE, hedge⟩
    · exact Or.inl ⟨n, List.mem_append_left _ hn, hne⟩
    · by_cases hyv : y = n0.1
      · left
        subst hyv
        obtain ⟨m, hm, hxe, hwx⟩ := hedge
        have hwm : rep.walls.truthy (n0.1 + m.vector) = false := by
          rw [← hxe]
          exact hwx
        have hsmem : (n0.1 + m.vector, [m], rep.cost_fn (n0.1 + m.vector))
            ∈ rep.successors n0.1 := mem_successors_intro rep n0.1 m hm hwm
        refine ⟨(n0.1 + m.vector, n0.2.1 ++ [m], n0.2.2 + rep.cost_fn (n0.1 + m.vector)),
          ?_, by rw [← hxe]⟩
        apply List.mem_append_right
        apply List.mem_map.mpr
        refine ⟨(n0.1 + m.vector, [m], rep.cost_fn (n0.1 + m.vector)), ?_, rfl⟩
        rw [List.mem_filter]
        refine ⟨hsmem, ?_⟩
        rw [← hxe]
        simpa using hxE
      · exact Or.inr ⟨y, hdy,
          fun hc => (List.mem_cons.mp hc).elim hyv hyE, hedge⟩
  · intro hc
    rcases List.mem_cons.mp hc with h1 | h1
    · rw [PositionSearchRepresentation.is_goal] at hgoalv
      rw [h1] at hgoalv
      simp at hgoalv
    · exact goalE h1

/-- The breadth-first run: from any state satisfying the invariant, with the
goal reachable at distance `K` and enough fuel, the loop returns `found p`
for a shortest path `p` (of length exactly `K`). -/
theorem bfs_run (rep : PositionSearchRepresentation) (S : List Vector)
    (hclosed : ∀ v ∈ S, ∀ s ∈ rep.successors v, s.1 ∈ S)
    (K : Nat) (hreach : distIs rep.walls rep.start rep.goal K) :
    ∀ (fuel : Nat) (frontier : List Node) (E : List Vector),
      (∃ L qa qb, frontier = qa ++ qb ∧ BFSInvAt rep L qa qb E) →
      (∀ n ∈ frontier, n.1 ∈ S) →
      frontier.length + 5 * (S.filter (fun v => decide (v ∉ E))).length < fuel →
      ∃ p, searchAux rep selHead insBack fuel frontier E = .found p ∧
        p.length = K ∧ GWalk rep.walls rep.start p rep.goal = true := by
  intro fuel
  induction fuel with
  | zero =>
    intro frontier E _ _ hfuel
    omega
  | succ f ih =>
    intro frontier E hinv hfrS hfuel
    obtain ⟨L0, qa0, qb0, hq0, hI0⟩ := hinv
    have hnorm : ∃ L qa qb, frontier = qa ++ qb ∧ BFSInvAt rep L qa qb E ∧
        (qa = [] → qb = []) := by
      by_cases hqa : qa0 = []
      · subst hqa
        by_cases hqb : qb0 = []
        · exact ⟨L0, [], qb0, hq0, hI0, fun _ => hqb⟩
        · refine ⟨L0 + 1, qb0, [], ?_, bfsInv_shift rep L0 qb0 E hI0,
            fun h => absurd h hqb⟩
          rw [List.append_nil]
          simpa using hq0
      · exact ⟨L0, qa0, qb0, hq0, hI0, fun h => absurd h hqa⟩
    clear hq0 hI0
    obtain ⟨L, qa, qb, hq, hI, hqimp⟩ := hnorm
    cases qa with
    | nil =>
      exfalso
      have hqb : qb = [] := hqimp rfl
      subst hqb
      obtain ⟨sound, lenA, lenB, below, expl, covL, covL1, goalE⟩ := hI
      rcases Nat.lt_or_ge K L with hKL | hKL
      · exact goalE (below rep.goal K hreach hKL)
      · rcases Nat.eq_or_lt_of_le hKL with hKeq | hKgt
        · obtain ⟨n, hn, _⟩ := covL rep.goal (hKeq ▸ hreach) goalE
          simp at hn
        · obtain ⟨y, hy⟩ := distIs_all_levels rep.walls rep.start K rep.goal hreach
            (L + 1) (by omega)
          have hyE : y ∉ E := by
            intro hc
            obtain ⟨k, hk, hkle⟩ := expl y hc
            have := distIs_unique rep.walls rep.start y _ _ hy hk
            omega
          rcases covL1 y hy hyE with ⟨n, hn, _⟩ | ⟨z, hz, hzE, _⟩
          · simp at hn
          · obtain ⟨n, hn, _⟩ := covL z hz hzE
            simp at hn
    | cons n0 qa2 =>
      obtain ⟨v0, p0, c0⟩ := n0
      subst hq
      rw [List.cons_append] at hfrS hfuel ⊢
      rw [searchAux]
      rw [show selHead ((v0, p0, c0) :: (qa2 ++ qb))
        = some ((v0, p0, c0), qa2 ++ qb) from rfl]
      dsimp only
      have hv0S : v0 ∈ S := hfrS (v0, p0, c0) (List.mem_cons_self _ _)
      have hrestS : ∀ n ∈ qa2 ++ qb, n.1 ∈ S :=
        fun n hn => hfrS n (List.mem_cons_of_mem _ hn)
      by_cases hexp : v0 ∈ E
      · rw [if_pos hexp]
        apply ih (qa2 ++ qb) E
          ⟨L, qa2, qb, rfl, bfsInv_discard rep L (v0, p0, c0) qa2 qb E hI hexp⟩
          hrestS
        simp only [List.length_cons] at hfuel
        omega
      · rw [if_neg hexp]
        by_cases hgl : rep.is_goal v0 = true
        · rw [if_pos hgl]
          refine ⟨p0, rfl, ?_, ?_⟩
          · have hvg : v0 = rep.goal := by
              rw [PositionSearchRepresentation.is_goal] at hgl
              exact of_decide_eq_true hgl
            have hwalk : GWalk rep.walls rep.start p0 v0 = true :=
              hI.sound (v0, p0, c0) (by
                rw [List.cons_append]
                exact List.mem_cons_self _ _)
            have hlenp : p0.length = L := hI.lenA _ (List.mem_cons_self _ _)
            have hKle : K ≤ p0.length := hreach.2 p0 (hvg ▸ hwalk)
            have hKge : ¬K < L := fun hlt => hI.goalE (hI.below rep.goal K hreach hlt)
            omega
          · have hvg : v0 = rep.goal := by
              rw [PositionSearchRepresentation.is_goal] at hgl
              exact of_decide_eq_true hgl
            have hwalk : GWalk rep.walls rep.start p0 v0 = true :=
              hI.sound (v0, p0, c0) (by
                rw [List.cons_append]
                exact List.mem_cons_self _ _)
            exact hvg ▸ hwalk
        · rw [if_neg hgl]
          have hglf : rep.is_goal v0 = false := Bool.eq_false_iff.mpr hgl
          rw [bfs_push_eq (v0 :: E) p0 c0 (rep.successors v0) (qa2 ++ qb)]
          have hIexp := bfsInv_expand rep L (v0, p0, c0) qa2 qb E hI hexp hglf
          apply ih _ (v0 :: E)
            ⟨L, qa2, qb ++ ((rep.successors v0).filter
                (fun s => decide (s.1 ∉ v0 :: E))).map
              (fun s => (s.1, p0 ++ s.2.1, c0 + s.2.2)),
              by rw [List.append_assoc], hIexp⟩
          · intro n hn
            rw [List.append_assoc, List.mem_append] at hn
            rcases hn with hn | hn
            · exact hrestS n (List.mem_append_left _ hn)
            · rw [List.mem_append] at hn
              rcases hn with hn | hn
              · exact hrestS n (List.mem_append_right _ hn)
              · obtain ⟨s, hs, hns⟩ := List.mem_map.mp hn
                rw [List.mem_filter] at hs
                rw [← hns]
                exact hclosed v0 hv0S s hs.1
          · have hlennews : (((rep.successors v0).filter
                (fun s => decide (s.1 ∉ v0 :: E))).map
              (fun s => (s.1, p0 ++ s.2.1, c0 + s.2.2))).length
                ≤ 4 := by
              rw [List.length_map]
              exact (List.length_filter_le _ _).trans (successors_length_le rep v0)
            have hfilt : (S.filter (fun v => decide (v ∉ v0 :: E))).length
                < (S.filter (fun v => decide (v ∉ E))).length := by
              have hsubl : List.Sublist (S.filter (fun v => decide (v ∉ v0 :: E)))
                  (S.filter (fun v => decide (v ∉ E))) := by
                apply List.monotone_filter_right
                intro a ha
                simp only [decide_eq_true_eq, List.mem_cons, not_or] at ha ⊢
                exact ha.2
              have hmem1 : v0 ∈ S.filter (fun v => decide (v ∉ E)) := by
                rw [List.mem_filter]
                exact ⟨hv0S, by simpa using hexp⟩
              have hmem2 : v0 ∉ S.filter (fun v => decide (v ∉ v0 :: E)) := by
                rw [List.mem_filter]
                simp
              refine Nat.lt_of_le_of_ne hsubl.length_le (fun he => ?_)
              rw [hsubl.eq_of_length he] at hmem2
              exact hmem2 hmem1
            simp only [List.length_cons, List.length_append] at hfuel ⊢
            omega

/-- **C3.** For every finite maze (given as a finite set `S` of cells closed
under successor expansion and containing the start) whose goal is reachable
from the start, `breadthfirst` on the corresponding position search
representation returns (within an explicit fuel bound) a wall-free action
sequence from start to goal whose length is minimal among all wall-free
paths from start to goal. -/
theorem c3_breadthfirst_shortest (rep : PositionSearchRepresentation)
    (S : List Vector)
    (hstart : rep.start ∈ S)
    (hclosed : ∀ v ∈ S, ∀ s ∈ rep.successors v, s.1 ∈ S)
    (hreach : ReachableFrom rep.walls rep.start rep.goal)
    (fuel : Nat) (hfuel : 5 * S.length + 1 < fuel) :
    ∃ p, breadthfirst rep fuel = .found p ∧
      FreeWalk rep.walls rep.start p rep.goal = true ∧
      ∀ q, FreeWalk rep.walls rep.start q rep.goal = true →
        p.length ≤ q.length := by
  obtain ⟨q0, hq0⟩ := hreach
  rw [FreeWalk, Bool.and_eq_true] at hq0
  obtain ⟨hfree0, hend0⟩ := hq0
  obtain ⟨hfree1, hend1⟩ := walkFree_filter_stop rep.walls q0 rep.start hfree0
  have hend2 : walkEnd rep.start q0 = rep.goal := of_decide_eq_true hend0
  have hg0 : GWalk rep.walls rep.start
      (q0.filter (fun m => decide (m ≠ Move.stop))) rep.goal = true := by
    rw [GWalk, Bool.and_eq_true]
    refine ⟨List.all_eq_true.mpr (fun m hm => (List.mem_filter.mp hm).2), ?_⟩
    rw [FreeWalk, Bool.and_eq_true]
    refine ⟨hfree1, ?_⟩
    rw [hend1, hend2]
    simp
  obtain ⟨K, hK, _⟩ := distIs_exists rep.walls rep.start rep.goal _ hg0
  have hInv : BFSInvAt rep 0 [(rep.start, ([] : List Move), (0 : ℚ))] [] [] := by
    refine ⟨?_, ?_, ?_, ?_, ?_, ?_, ?_, ?_⟩
    · intro n hn
      have hn2 : n = (rep.start, ([] : List Move), (0 : ℚ)) := by simpa using hn
      rw [hn2]
      exact GWalk_nil _ _
    · intro n hn
      have hn2 : n = (rep.start, ([] : List Move), (0 : ℚ)) := by simpa using hn
      rw [hn2]
      rfl
    · intro n hn
      simp at hn
    · intro x k _ hlt
      omega
    · intro x hx
      simp at hx
    · intro x hx _
      have hxs : x = rep.start := distIs_zero_eq _ _ _ hx
      refine ⟨(rep.start, [], 0), List.mem_singleton_self _, ?_⟩
      rw [hxs]
    · intro x hx _
      right
      obtain ⟨y, hy, hedge⟩ := distIs_succ_pred rep.walls rep.start x 0 hx
      exact ⟨y, hy, by simp, hedge⟩
    · simp
  have hfT : ([(rep.start, ([] : List Move), (0 : ℚ))] : List Node).length
      + 5 * (S.filter (fun v => decide (v ∉ ([] : List Vector)))).length < fuel := by
    have hflt : S.filter (fun v => decide (v ∉ ([] : List Vector))) = S := by
      apply List.filter_eq_self.mpr
      intro a _
      simp
    rw [hflt]
    simp only [List.length_singleton]
    omega
  have hfrS : ∀ n ∈ ([(rep.start, ([] : List Move), (0 : ℚ))] : List Node),
      n.1 ∈ S := by
    intro n hn
    rw [List.mem_singleton] at hn
    rw [hn]
    exact hstart
  obtain ⟨p, hfound, hplen, hpwalk⟩ := bfs_run rep S hclosed K hK fuel
    [(rep.start, [], 0)] [] ⟨0, [(rep.start, [], 0)], [], by simp, hInv⟩ hfrS hfT
  refine ⟨p, hfound, ?_, ?_⟩
  · rw [GWalk, Bool.and_eq_true] at hpwalk
    exact hpwalk.2
  · intro q hq
    rw [FreeWalk, Bool.and_eq_true] at hq
    obtain ⟨hqf, hqe⟩ := hq
    obtain ⟨hqf2, hqe2⟩ := walkFree_filter_stop rep.walls q rep.start hqf
    have hgq : GWalk rep.walls rep.start
        (q.filter (fun m => decide (m ≠ Move.stop))) rep.goal = true := by
      rw [GWalk, Bool.and_eq_true]
      refine ⟨List.all_eq_true.mpr (fun m hm => (List.mem_filter.mp hm).2), ?_⟩
      rw [FreeWalk, Bool.and_eq_true]
      refine ⟨hqf2, ?_⟩
      rw [hqe2, of_decide_eq_true hqe]
      simp
    have hKq := hK.2 _ hgq
    have hlq : (q.filter (fun m => decide (m ≠ Move.stop))).length ≤ q.length :=
      List.length_filter_le _ _
    omega

theorem c3_breadthfirst_shortest_witness :
    (repCorridor.start ∈ [(⟨1, 1⟩ : Vector), ⟨1, 2⟩] ∧
      (∀ v ∈ [(⟨1, 1⟩ : Vector), ⟨1, 2⟩], ∀ s ∈ repCorridor.successors v,
        s.1 ∈ [(⟨1, 1⟩ : Vector), ⟨1, 2⟩]) ∧
      ReachableFrom repCorridor.walls repCorridor.start repCorridor.goal ∧
      5 * [(⟨1, 1⟩ : Vector), ⟨1, 2⟩].length + 1 < 12) ∧
    (∃ p, breadthfirst repCorridor 12 = .found p ∧
      FreeWalk repCorridor.walls repCorridor.start p repCorridor.goal = true ∧
      ∀ q, FreeWalk repCorridor.walls repCorridor.start q repCorridor.goal = true →
        p.length ≤ q.length) :=
  ⟨⟨by decide, by decide, ⟨[Move.up], by decide⟩, by decide⟩,
    c3_breadthfirst_shortest repCorridor [⟨1, 1⟩, ⟨1, 2⟩] (by decide) (by decide)
      ⟨[Move.up], by decide⟩ 12 (by decide)⟩

end PacmanEvolution
